import Mathlib

/-!
Verification development for the Orion chess engine core
(`engine-core` crate).  Rust source files are shallowly embedded:
`u64` bitboards become `Nat` with explicit reduction modulo `2 ^ 64`
where wrap-around matters, fallible code returns `Option`/`Except`,
and the mutable `Board` becomes explicit state passing.
-/

namespace Orion

/-! ## Bit primitives (helpers.rs, chess_consts.rs) -/

/-- All 64 bits set: the value of `u64::MAX`. -/
def M64 : Nat := 2 ^ 64 - 1

/-- Reduction of a `Nat` to the `u64` range, used wherever the Rust
code relies on wrap-around (`wrapping_mul`, `<<`). -/
def wrap64 (n : Nat) : Nat := n % 2 ^ 64

/-- `u64` bitwise complement `!x`. -/
def compl64 (n : Nat) : Nat := M64 ^^^ n

/-- `u64` left shift `x << n` (drops bits shifted past bit 63). -/
def shl64 (x n : Nat) : Nat := wrap64 (x <<< n)

/-- Side::{White, Black} (enums.rs). -/
inductive Side : Type
  | White : Side
  | Black : Side
deriving DecidableEq, Repr, Fintype

/-- `Side::index` (enums.rs). -/
def Side.index : Side → Nat
  | .White => 0
  | .Black => 1

/-- `Side::opposite` (enums.rs). -/
def Side.opposite : Side → Side
  | .White => .Black
  | .Black => .White

/-- `Side::all()` iteration order (enums.rs). -/
def Side.all : List Side := [.White, .Black]

/-- Piece::{Pawn .. King} (enums.rs). -/
inductive Piece : Type
  | Pawn : Piece
  | Knight : Piece
  | Bishop : Piece
  | Rook : Piece
  | Queen : Piece
  | King : Piece
deriving DecidableEq, Repr, Fintype

/-- `Piece::index` (enums.rs). -/
def Piece.index : Piece → Nat
  | .Pawn => 0
  | .Knight => 1
  | .Bishop => 2
  | .Rook => 3
  | .Queen => 4
  | .King => 5

/-- `Piece::all()` iteration order (enums.rs). -/
def Piece.all : List Piece :=
  [.Pawn, .Knight, .Bishop, .Rook, .Queen, .King]

/-- `Piece::PROMOTION_PIECES` (enums.rs). -/
def Piece.PROMOTION_PIECES : List Piece :=
  [.Knight, .Bishop, .Rook, .Queen]

/-- A square index in `[0, 64)`, `index = rank * 8 + file` (enums.rs
`Square`, a fieldless `repr(u8)` enum with 64 variants). -/
abbrev Square : Type := Fin 64

/-- `Square::bit` (enums.rs): `1u64 << index`. -/
def sqBit (sq : Square) : Nat := 1 <<< sq.val

/-- `Square::rank` as a raw index (enums.rs returns `Rank`; the code
only ever uses its index). -/
def Square.rankIdx (sq : Square) : Nat := sq.val / 8

/-- `Square::file` as a raw index. -/
def Square.fileIdx (sq : Square) : Nat := sq.val % 8

/-- Build a square from a raw index (total; callers respect `< 64`,
matching `Square::from_u8_unchecked`'s defined-behaviour region). -/
def mkSquare (n : Nat) : Square := ⟨n % 64, Nat.mod_lt _ (by norm_num)⟩

/-- `Square::can_be_en_passant` (enums.rs): index within A3..H3 or
A6..H6. -/
def Square.can_be_en_passant (sq : Square) : Bool :=
  (16 ≤ sq.val && sq.val ≤ 23) || (40 ≤ sq.val && sq.val ≤ 47)

/-- `Square::is_en_passant_target_for` (enums.rs). -/
def Square.is_en_passant_target_for (sq : Square) (side : Side) : Bool :=
  match side with
  | .White => sq.rankIdx == 5
  | .Black => sq.rankIdx == 2

/-- `Square::backward` (enums.rs): one rank towards the given side's
own back rank.  The Rust code uses unchecked arithmetic; on its
defined-behaviour region (the result stays on the board) this `% 64`
model agrees with it. -/
def Square.backward (sq : Square) (side : Side) : Square :=
  match side with
  | .White => mkSquare (sq.val - 8)
  | .Black => mkSquare (sq.val + 8)

/-- `helpers::rank_mask` (helpers.rs): all bits of one rank. -/
def rank_mask (rank : Nat) : Nat :=
  (List.range 8).foldl (fun bb f => bb ||| (1 <<< (rank * 8 + f))) 0

/-- `helpers::file_mask` (helpers.rs): all bits of one file. -/
def file_mask (file : Nat) : Nat :=
  (List.range 8).foldl (fun bb r => bb ||| (1 <<< (r * 8 + file))) 0

/-- `helpers::square_mask` (helpers.rs). -/
def square_mask (rank file : Nat) : Nat := 1 <<< (rank * 8 + file)

/-- `chess_consts::NOT_A_FILE_BB`. -/
def NOT_A_FILE_BB : Nat := compl64 (file_mask 0)

/-- `chess_consts::NOT_H_FILE_BB`. -/
def NOT_H_FILE_BB : Nat := compl64 (file_mask 7)

/-- `chess_consts::NOT_FIRST_RANK_BB`. -/
def NOT_FIRST_RANK_BB : Nat := compl64 (rank_mask 0)

/-- `chess_consts::NOT_EIGHTH_RANK_BB`. -/
def NOT_EIGHTH_RANK_BB : Nat := compl64 (rank_mask 7)

/-- `chess_consts::NOT_A_B_FILE_BB`. -/
def NOT_A_B_FILE_BB : Nat := compl64 (file_mask 0 ||| file_mask 1)

/-- `chess_consts::NOT_G_H_FILE_BB`. -/
def NOT_G_H_FILE_BB : Nat := compl64 (file_mask 6 ||| file_mask 7)

/-- `chess_consts::NOT_FIRST_SECOND_RANK_BB`. -/
def NOT_FIRST_SECOND_RANK_BB : Nat := compl64 (rank_mask 0 ||| rank_mask 1)

/-- `chess_consts::NOT_SEVENTH_EIGHTH_RANK_BB`. -/
def NOT_SEVENTH_EIGHTH_RANK_BB : Nat := compl64 (rank_mask 6 ||| rank_mask 7)

/-- `helpers::get_bits_iter` / `get_squares_iter` (helpers.rs): the
iterator repeatedly pops the least significant set bit, so its
observable output is exactly the ascending list of set-bit indices of
the `u64`; this embedding produces that list directly. -/
def bitIndices (bb : Nat) : List Nat :=
  (List.range 64).filter (fun i => bb.testBit i)

/-- `get_squares_iter` as squares. -/
def squaresOf (bb : Nat) : List Square := (bitIndices bb).map mkSquare

/-- `u64::count_ones`, via the number of set bits below 64 (agrees
with the Rust intrinsic on the `u64` range). -/
def countOnes (bb : Nat) : Nat := (bitIndices bb).length

/-! ## Leaper attack tables (pawn_attack_table.rs,
knight_attack_table.rs, king_attack_table.rs).  The tables are filled
once from these generator expressions and looked up by square, so the
lookup functions are embedded as the generators themselves. -/

/-- `generate_pawn_attacks_mask` (pawn_attack_table.rs); the table
lookup `get_pawn_attacks_mask(side, square)` returns exactly this. -/
def get_pawn_attacks_mask (side : Side) (sq : Square) : Nat :=
  let bb := sqBit sq
  match side with
  | .White => shl64 (bb &&& NOT_H_FILE_BB) 9 ||| shl64 (bb &&& NOT_A_FILE_BB) 7
  | .Black => ((bb &&& NOT_H_FILE_BB) >>> 7) ||| ((bb &&& NOT_A_FILE_BB) >>> 9)

/-- `generate_knight_attacks_mask` (knight_attack_table.rs); the table
lookup `get_knight_attacks_mask` returns exactly this. -/
def get_knight_attacks_mask (sq : Square) : Nat :=
  let bb := sqBit sq
  shl64 (bb &&& NOT_SEVENTH_EIGHTH_RANK_BB &&& NOT_H_FILE_BB) 17 |||
  shl64 (bb &&& NOT_EIGHTH_RANK_BB &&& NOT_G_H_FILE_BB) 10 |||
  ((bb &&& NOT_FIRST_RANK_BB &&& NOT_G_H_FILE_BB) >>> 6) |||
  ((bb &&& NOT_FIRST_SECOND_RANK_BB &&& NOT_H_FILE_BB) >>> 15) |||
  ((bb &&& NOT_FIRST_SECOND_RANK_BB &&& NOT_A_FILE_BB) >>> 17) |||
  ((bb &&& NOT_FIRST_RANK_BB &&& NOT_A_B_FILE_BB) >>> 10) |||
  shl64 (bb &&& NOT_EIGHTH_RANK_BB &&& NOT_A_B_FILE_BB) 6 |||
  shl64 (bb &&& NOT_SEVENTH_EIGHTH_RANK_BB &&& NOT_A_FILE_BB) 15

/-- `generate_king_attacks_mask` (king_attack_table.rs); the table
lookup `get_king_attacks_mask` returns exactly this. -/
def get_king_attacks_mask (sq : Square) : Nat :=
  let bb := sqBit sq
  shl64 (bb &&& NOT_EIGHTH_RANK_BB &&& NOT_H_FILE_BB) 9 |||
  shl64 (bb &&& NOT_H_FILE_BB) 1 |||
  ((bb &&& NOT_FIRST_RANK_BB &&& NOT_H_FILE_BB) >>> 7) |||
  ((bb &&& NOT_FIRST_RANK_BB) >>> 8) |||
  ((bb &&& NOT_FIRST_RANK_BB &&& NOT_A_FILE_BB) >>> 9) |||
  ((bb &&& NOT_A_FILE_BB) >>> 1) |||
  shl64 (bb &&& NOT_EIGHTH_RANK_BB &&& NOT_A_FILE_BB) 7 |||
  shl64 (bb &&& NOT_EIGHTH_RANK_BB) 8

/-! ## Sliding attacks (sliding_piece_attack_table.rs) -/

/-- One ray of the blocker-aware walks
(`generate_bishop_attacks_mask` / `generate_rook_attacks_mask`):
while the coordinates stay on the board, include the square, and stop
right after the first square that intersects `blockers`.  `fuel = 8`
covers every ray of an 8×8 board. -/
def attackRay (blockers : Nat) (r f dr df : Int) : Nat → Nat
  | 0 => 0
  | fuel + 1 =>
    if 0 ≤ r ∧ r < 8 ∧ 0 ≤ f ∧ f < 8 then
      let m := square_mask r.toNat f.toNat
      if m &&& blockers ≠ 0 then m
      else m ||| attackRay blockers (r + dr) (f + df) dr df fuel
    else 0

/-- `generate_bishop_attacks_mask` (sliding_piece_attack_table.rs):
walk the four diagonals, each square up to and including the first
blocker or the board edge. -/
def generate_bishop_attacks_mask (sq : Square) (blockers : Nat) : Nat :=
  let tr : Int := sq.rankIdx
  let tf : Int := sq.fileIdx
  attackRay blockers (tr + 1) (tf + 1) 1 1 8 |||
  attackRay blockers (tr + 1) (tf - 1) 1 (-1) 8 |||
  attackRay blockers (tr - 1) (tf + 1) (-1) 1 8 |||
  attackRay blockers (tr - 1) (tf - 1) (-1) (-1) 8

/-- `generate_rook_attacks_mask` (sliding_piece_attack_table.rs). -/
def generate_rook_attacks_mask (sq : Square) (blockers : Nat) : Nat :=
  let tr : Int := sq.rankIdx
  let tf : Int := sq.fileIdx
  attackRay blockers (tr + 1) tf 1 0 8 |||
  attackRay blockers tr (tf + 1) 0 1 8 |||
  attackRay blockers (tr - 1) tf (-1) 0 8 |||
  attackRay blockers tr (tf - 1) 0 (-1) 8

/-- One ray of the relevant-occupancy masks: include squares while the
per-direction continuation condition holds (the conditions exclude the
board edge of the ray). -/
def relevantRay (r f dr df : Int) (cont : Int → Int → Bool) : Nat → Nat
  | 0 => 0
  | fuel + 1 =>
    if cont r f then
      square_mask r.toNat f.toNat ||| relevantRay (r + dr) (f + df) dr df cont fuel
    else 0

/-- `generate_relevant_bishop_occupancy_mask`
(sliding_piece_attack_table.rs): diagonal squares that can block a ray
from `sq`, excluding board edges. -/
def generate_relevant_bishop_occupancy_mask (sq : Square) : Nat :=
  let tr : Int := sq.rankIdx
  let tf : Int := sq.fileIdx
  relevantRay (tr + 1) (tf + 1) 1 1 (fun r f => r < 7 && f < 7) 8 |||
  relevantRay (tr + 1) (tf - 1) 1 (-1) (fun r f => r < 7 && f > 0) 8 |||
  relevantRay (tr - 1) (tf + 1) (-1) 1 (fun r f => r > 0 && f < 7) 8 |||
  relevantRay (tr - 1) (tf - 1) (-1) (-1) (fun r f => r > 0 && f > 0) 8

/-- `generate_relevant_rook_occupancy_mask`
(sliding_piece_attack_table.rs). -/
def generate_relevant_rook_occupancy_mask (sq : Square) : Nat :=
  let tr : Int := sq.rankIdx
  let tf : Int := sq.fileIdx
  relevantRay (tr + 1) tf 1 0 (fun r _ => r < 7) 8 |||
  relevantRay tr (tf + 1) 0 1 (fun _ f => f < 7) 8 |||
  relevantRay (tr - 1) tf (-1) 0 (fun r _ => r > 0) 8 |||
  relevantRay tr (tf - 1) 0 (-1) (fun _ f => f > 0) 8

/-- `build_blocker_mask` (sliding_piece_attack_table.rs): the loop
pops the set bits of `relevant_mask` from least significant upward, so
the `i`-th popped square is the `i`-th entry of the ascending set-bit
list; bit `i` of `index` selects whether that square joins the blocker
subset. -/
def build_blocker_mask (index : Nat) (relevant_mask : Nat) : Nat :=
  (bitIndices relevant_mask).enum.foldl
    (fun blocker p => if index.testBit p.1 then blocker ||| (1 <<< p.2) else blocker) 0

/-- The magic index `(occupancy * magic) >> (64 - bits)` computed with
`u64` wrap-around (`wrapping_mul`). -/
def magicIndex (magic bits occ : Nat) : Nat :=
  wrap64 (occ * magic) >>> (64 - bits)

/-- The `(blocker subset, ray-walk attack set)` pairs enumerated by
`find_magic_number` and by the table-fill loops, for a relevant mask
with `bits` set bits and the given reference ray walk. -/
def occupancyAttackPairs (relevant_mask : Nat) (ray : Nat → Nat) : List (Nat × Nat) :=
  (List.range (2 ^ countOnes relevant_mask)).map
    (fun i => (build_blocker_mask i relevant_mask, ray (build_blocker_mask i relevant_mask)))

/-- The candidate-verification loop of `find_magic_number`
(sliding_piece_attack_table.rs): scan the blocker subsets in order;
a magic index not used yet records the attack set, an index already
holding the same attack set is accepted, anything else rejects the
candidate. -/
def magic_check_loop (magic bits : Nat) (used : Nat → Nat) : List (Nat × Nat) → Bool
  | [] => true
  | (occ, att) :: rest =>
    let idx := magicIndex magic bits occ
    if used idx = 0 then
      magic_check_loop magic bits (Function.update used idx att) rest
    else if used idx = att then
      magic_check_loop magic bits used rest
    else false

/-- Acceptance condition of a magic-number candidate for one square
and piece: the verification loop passes over every blocker subset of
the relevant mask. -/
def magic_accepts (relevant_mask : Nat) (ray : Nat → Nat) (magic : Nat) : Bool :=
  magic_check_loop magic (countOnes relevant_mask) (fun _ => 0)
    (occupancyAttackPairs relevant_mask ray)

/-- The attack-table fill loop (`BISHOP_ATTACKS_TABLE` /
`ROOK_ATTACKS_TABLE` in sliding_piece_attack_table.rs): write the
ray-walk attack set of every blocker subset at its magic index. -/
def fill_attacks_table (magic bits : Nat) : List (Nat × Nat) → (Nat → Nat) → Nat → Nat
  | [], tbl => tbl
  | (occ, att) :: rest, tbl =>
    fill_attacks_table magic bits rest (Function.update tbl (magicIndex magic bits occ) att)

/-- `get_bishop_attacks_mask` with an explicit magic number: mask the
occupancy with the square's relevant mask, multiply, shift, and read
the filled table (sliding_piece_attack_table.rs). -/
def magic_bishop_lookup (magic : Nat) (sq : Square) (occupancy : Nat) : Nat :=
  let mask := generate_relevant_bishop_occupancy_mask sq
  let bits := countOnes mask
  let tbl := fill_attacks_table magic bits
    (occupancyAttackPairs mask (generate_bishop_attacks_mask sq)) (fun _ => 0)
  tbl (magicIndex magic bits (occupancy &&& mask))

/-- `get_rook_attacks_mask` with an explicit magic number. -/
def magic_rook_lookup (magic : Nat) (sq : Square) (occupancy : Nat) : Nat :=
  let mask := generate_relevant_rook_occupancy_mask sq
  let bits := countOnes mask
  let tbl := fill_attacks_table magic bits
    (occupancyAttackPairs mask (generate_rook_attacks_mask sq)) (fun _ => 0)
  tbl (magicIndex magic bits (occupancy &&& mask))

/-- `get_bishop_attacks_mask` (sliding_piece_attack_table.rs): the
magic table stores, at the index of each blocker subset, the ray walk
of that subset, so the lookup's specified value is the ray walk of the
occupancy restricted to the square's relevant mask.  The board code is
embedded against this value; the theorem for claim C9 proves that the
magic-indexed lookup realises it for every accepted magic number. -/
def get_bishop_attacks_mask (sq : Square) (occupancy : Nat) : Nat :=
  generate_bishop_attacks_mask sq (occupancy &&& generate_relevant_bishop_occupancy_mask sq)

/-- `get_rook_attacks_mask` (sliding_piece_attack_table.rs); see
`get_bishop_attacks_mask`. -/
def get_rook_attacks_mask (sq : Square) (occupancy : Nat) : Nat :=
  generate_rook_attacks_mask sq (occupancy &&& generate_relevant_rook_occupancy_mask sq)

/-- `get_queen_attacks_mask` (sliding_piece_attack_table.rs): bishop
union rook. -/
def get_queen_attacks_mask (sq : Square) (occupancy : Nat) : Nat :=
  get_bishop_attacks_mask sq occupancy ||| get_rook_attacks_mask sq occupancy

/-! ## Moves and castling (enums.rs) -/

/-- `CastlingSide` (enums.rs). -/
inductive CastlingSide : Type
  | KingSide : CastlingSide
  | QueenSide : CastlingSide
deriving DecidableEq, Repr, Fintype

/-- `MoveFlags` (enums.rs): the two `bitflags` bits. -/
structure MoveFlags : Type where
  en_passant : Bool
  double_push : Bool
deriving DecidableEq, Repr

/-- `MoveFlags::NONE` / `empty()`. -/
def MoveFlags.NONE : MoveFlags := ⟨false, false⟩

/-- `MoveFlags::EN_PASSANT`. -/
def MoveFlags.EN_PASSANT : MoveFlags := ⟨true, false⟩

/-- `MoveFlags::DOUBLE_PUSH`. -/
def MoveFlags.DOUBLE_PUSH : MoveFlags := ⟨false, true⟩

/-- `Move` (enums.rs): tagged union of a normal move and a castle. -/
inductive Move : Type
  | normal (fromSq toSq : Square) (piece : Piece) (captured : Option Piece)
      (promo : Option Piece) (flags : MoveFlags) : Move
  | castle (fromSq toSq : Square) (side : CastlingSide) : Move
deriving DecidableEq, Repr

/-- `Move::is_capture` (enums.rs). -/
def Move.is_capture : Move → Bool
  | .normal _ _ _ (some _) _ _ => true
  | _ => false

/-- `Move::is_promo` (enums.rs). -/
def Move.is_promo : Move → Bool
  | .normal _ _ _ _ (some _) _ => true
  | _ => false

/-- `Move::get_from_to` (enums.rs). -/
def Move.get_from_to : Move → Square × Square
  | .normal f t _ _ _ _ => (f, t)
  | .castle f t _ => (f, t)

/-- `CastlingSide::get_castling_positions` (enums.rs): the from/to
squares of the king or the rook for a castle of the given side.  The
function is only called with `Piece::King` or `Piece::Rook`; other
pieces are mapped to the king pair (the Rust code panics there and
never reaches it). -/
def CastlingSide.get_castling_positions (side : Side) (piece : Piece)
    (castling_side : CastlingSide) : Square × Square :=
  match side, piece, castling_side with
  | .White, .Rook, .KingSide => (⟨7, by omega⟩, ⟨5, by omega⟩)
  | .White, .Rook, .QueenSide => (⟨0, by omega⟩, ⟨3, by omega⟩)
  | .White, _, .KingSide => (⟨4, by omega⟩, ⟨6, by omega⟩)
  | .White, _, .QueenSide => (⟨4, by omega⟩, ⟨2, by omega⟩)
  | .Black, .Rook, .KingSide => (⟨63, by omega⟩, ⟨61, by omega⟩)
  | .Black, .Rook, .QueenSide => (⟨56, by omega⟩, ⟨59, by omega⟩)
  | .Black, _, .KingSide => (⟨60, by omega⟩, ⟨62, by omega⟩)
  | .Black, _, .QueenSide => (⟨60, by omega⟩, ⟨58, by omega⟩)

/-- `Move::get_castling_move` (enums.rs): a castle move stamped with
the king's from/to squares. -/
def Move.get_castling_move (side : Side) (castling_side : CastlingSide) : Move :=
  let p := CastlingSide.get_castling_positions side .King castling_side
  .castle p.1 p.2 castling_side

/-- `CastlingSide::WHITE_KING_SIDE_EMPTY_MASK` (enums.rs). -/
def WHITE_KING_SIDE_EMPTY_MASK : Nat := (1 <<< 5) ||| (1 <<< 6)

/-- `CastlingSide::WHITE_KING_SIDE_NOT_ATTACKED_MASK`. -/
def WHITE_KING_SIDE_NOT_ATTACKED_MASK : Nat := WHITE_KING_SIDE_EMPTY_MASK ||| (1 <<< 4)

/-- `CastlingSide::WHITE_QUEEN_SIDE_EMPTY_MASK`. -/
def WHITE_QUEEN_SIDE_EMPTY_MASK : Nat := (1 <<< 1) ||| (1 <<< 2) ||| (1 <<< 3)

/-- `CastlingSide::WHITE_QUEEN_SIDE_NOT_ATTACKED_MASK`. -/
def WHITE_QUEEN_SIDE_NOT_ATTACKED_MASK : Nat := (1 <<< 2) ||| (1 <<< 3) ||| (1 <<< 4)

/-- `CastlingSide::BLACK_KING_SIDE_EMPTY_MASK`. -/
def BLACK_KING_SIDE_EMPTY_MASK : Nat := (1 <<< 61) ||| (1 <<< 62)

/-- `CastlingSide::BLACK_KING_SIDE_NOT_ATTACKED_MASK`. -/
def BLACK_KING_SIDE_NOT_ATTACKED_MASK : Nat := BLACK_KING_SIDE_EMPTY_MASK ||| (1 <<< 60)

/-- `CastlingSide::BLACK_QUEEN_SIDE_EMPTY_MASK`. -/
def BLACK_QUEEN_SIDE_EMPTY_MASK : Nat := (1 <<< 57) ||| (1 <<< 58) ||| (1 <<< 59)

/-- `CastlingSide::BLACK_QUEEN_SIDE_NOT_ATTACKED_MASK`. -/
def BLACK_QUEEN_SIDE_NOT_ATTACKED_MASK : Nat := (1 <<< 58) ||| (1 <<< 59) ||| (1 <<< 60)

/-! ## Board state (board.rs, history.rs) -/

/-- `CastlingState` (board.rs): the four castling-right bits. -/
structure CastlingState : Type where
  white_kingside : Bool
  white_queenside : Bool
  black_kingside : Bool
  black_queenside : Bool
deriving DecidableEq, Repr

/-- `CastlingState::remove_all` (board.rs). -/
def CastlingState.remove_all (cs : CastlingState) (side : Side) : CastlingState :=
  match side with
  | .White => { cs with white_kingside := false, white_queenside := false }
  | .Black => { cs with black_kingside := false, black_queenside := false }

/-- `CastlingState::remove_rook` (board.rs): clear the right tied to a
rook's original corner square. -/
def CastlingState.remove_rook (cs : CastlingState) (side : Side) (sq : Square) : CastlingState :=
  match side with
  | .White =>
    if sq.val = 0 then { cs with white_queenside := false }
    else if sq.val = 7 then { cs with white_kingside := false }
    else cs
  | .Black =>
    if sq.val = 56 then { cs with black_queenside := false }
    else if sq.val = 63 then { cs with black_kingside := false }
    else cs

/-- `CastlingState::get_castlings` (board.rs): the castling sides
still available to `side`, king side first. -/
def CastlingState.get_castlings (cs : CastlingState) (side : Side) : List CastlingSide :=
  let ks := match side with
    | .White => cs.white_kingside
    | .Black => cs.black_kingside
  let qs := match side with
    | .White => cs.white_queenside
    | .Black => cs.black_queenside
  (if ks then [CastlingSide.KingSide] else []) ++
  (if qs then [CastlingSide.QueenSide] else [])

/-- `GameState` (board.rs). -/
structure GameState : Type where
  side_to_move : Side
  en_passant_square : Option Square
  castling_state : CastlingState
  half_move_clock : Nat
  full_moves_count : Nat
deriving DecidableEq, Repr

/-- `HistoryEntry` (history.rs). -/
structure HistoryEntry : Type where
  mv : Move
  game_state : GameState
deriving DecidableEq, Repr

/-- `MAX_MOVES_COUNT` (history.rs): capacity of the history stack. -/
def MAX_MOVES_COUNT : Nat := 4096

/-- `Board` (board.rs).  The twelve piece bitboards are indexed by
`(side, piece)` exactly as `get_bb` computes `side * 6 + piece`; the
history stack is a list with its top at the head. -/
structure Board : Type where
  bitboards : Side → Piece → Nat
  side_occupancies : Side → Nat
  global_occupancy : Nat
  game_state : GameState
  history : List HistoryEntry

/-- `Board::get_bb` (board.rs). -/
def Board.get_bb (b : Board) (side : Side) (piece : Piece) : Nat :=
  b.bitboards side piece

/-- `Board::get_occupancy_bb` (board.rs). -/
def Board.get_occupancy_bb (b : Board) (side : Side) : Nat :=
  b.side_occupancies side

/-- `Board::get_empty_bb` (board.rs): `!global_occupancy`. -/
def Board.get_empty_bb (b : Board) : Nat := compl64 b.global_occupancy

/-- Pointwise update of one `(side, piece)` bitboard
(`get_bb_mut` assignment in board.rs). -/
def updateBB (f : Side → Piece → Nat) (side : Side) (piece : Piece) (v : Nat) :
    Side → Piece → Nat :=
  fun s p => if s = side ∧ p = piece then v else f s p

/-- Pointwise update of one side occupancy. -/
def updateOcc (f : Side → Nat) (side : Side) (v : Nat) : Side → Nat :=
  fun s => if s = side then v else f s

/-- `Board::add_piece` (board.rs): set the square's bit in the piece
bitboard, the side occupancy and the global occupancy. -/
def Board.add_piece (b : Board) (side : Side) (piece : Piece) (sq : Square) : Board :=
  let mask := sqBit sq
  { b with
    bitboards := updateBB b.bitboards side piece (b.get_bb side piece ||| mask)
    side_occupancies := updateOcc b.side_occupancies side (b.get_occupancy_bb side ||| mask)
    global_occupancy := b.global_occupancy ||| mask }

/-- `Board::remove_piece` (board.rs): clear the square's bit in the
piece bitboard, the side occupancy and the global occupancy. -/
def Board.remove_piece (b : Board) (side : Side) (piece : Piece) (sq : Square) : Board :=
  let mask := sqBit sq
  { b with
    bitboards := updateBB b.bitboards side piece (b.get_bb side piece &&& compl64 mask)
    side_occupancies := updateOcc b.side_occupancies side (b.get_occupancy_bb side &&& compl64 mask)
    global_occupancy := b.global_occupancy &&& compl64 mask }

/-- `Board::move_piece` (board.rs): remove at `fromSq`, add at `toSq`. -/
def Board.move_piece (b : Board) (side : Side) (piece : Piece) (fromSq toSq : Square) : Board :=
  (b.remove_piece side piece fromSq).add_piece side piece toSq

/-- `Board::recalc_occupancies` (board.rs). -/
def Board.recalc_occupancies (b : Board) : Board :=
  let white := Piece.all.foldl (fun acc p => acc ||| b.get_bb .White p) 0
  let black := Piece.all.foldl (fun acc p => acc ||| b.get_bb .Black p) 0
  { b with
    side_occupancies := fun s => match s with | .White => white | .Black => black
    global_occupancy := white ||| black }

/-- `Board::is_square_attacked` (board.rs): reverse super-piece test
against pawns, knights, king, bishops, rooks and queens. -/
def Board.is_square_attacked (b : Board) (square : Square) (attacker_side : Side) : Bool :=
  let candidates_bishops_bb := get_bishop_attacks_mask square b.global_occupancy
  let candidates_rooks_bb := get_rook_attacks_mask square b.global_occupancy
  (get_pawn_attacks_mask attacker_side.opposite square &&& b.get_bb attacker_side .Pawn ≠ 0) ||
  (get_knight_attacks_mask square &&& b.get_bb attacker_side .Knight ≠ 0) ||
  (get_king_attacks_mask square &&& b.get_bb attacker_side .King ≠ 0) ||
  (candidates_bishops_bb &&& b.get_bb attacker_side .Bishop ≠ 0) ||
  (candidates_rooks_bb &&& b.get_bb attacker_side .Rook ≠ 0) ||
  ((candidates_bishops_bb ||| candidates_rooks_bb) &&& b.get_bb attacker_side .Queen ≠ 0)

/-- `Board::get_king_square` (board.rs): index of the lowest set bit
of the side's king bitboard (the board always holds a king there on
the function's defined-behaviour region). -/
def Board.get_king_square (b : Board) (side : Side) : Square :=
  mkSquare ((bitIndices (b.get_bb side .King)).headD 0)

/-- `Board::is_in_check` (board.rs). -/
def Board.is_in_check (b : Board) (side : Side) : Bool :=
  b.is_square_attacked (b.get_king_square side) side.opposite

/-- `Board::get_occupancy_piece` (board.rs): first piece of the side
whose bitboard holds the square. -/
def Board.get_occupancy_piece (b : Board) (side : Side) (sq : Square) : Option Piece :=
  Piece.all.find? (fun p => decide (b.get_bb side p &&& sqBit sq ≠ 0))

/-! ## Make / unmake (move_operations.rs) -/

/-- The bitboard-and-occupancy effect of `make_move`'s `Move::Normal`
arm (move_operations.rs): remove the mover, remove a captured piece
from its square (one rank behind the target for en passant), add the
mover or its promotion target at the destination. -/
def makeNormalPieces (b : Board) (moving_side : Side) (fromSq toSq : Square)
    (piece : Piece) (captured : Option Piece) (promo : Option Piece)
    (flags : MoveFlags) : Board :=
  let b := b.remove_piece moving_side piece fromSq
  let b := match captured with
    | some captured_piece =>
      let captured_piece_sq := if flags.en_passant then toSq.backward moving_side else toSq
      b.remove_piece moving_side.opposite captured_piece captured_piece_sq
    | none => b
  b.add_piece moving_side (promo.getD piece) toSq

/-- The bitboard-and-occupancy effect of `make_move`'s `Move::Castle`
arm (move_operations.rs): move the king and then the matching rook to
their castled squares. -/
def makeCastlePieces (b : Board) (moving_side : Side) (castling_side : CastlingSide) : Board :=
  let kp := CastlingSide.get_castling_positions moving_side .King castling_side
  let rp := CastlingSide.get_castling_positions moving_side .Rook castling_side
  (b.move_piece moving_side .King kp.1 kp.2).move_piece moving_side .Rook rp.1 rp.2

/-- The game-state effect of `make_move` (move_operations.rs), in the
source's update order: clear the en-passant square; per move kind set
the double-push en-passant square, strip castling rights (king move,
rook move from a corner, rook captured on a corner, or castle), and
update the half-move clock; then bump the full-move counter after a
Black move and flip the side to move. -/
def makeMoveGameState (gs0 : GameState) (mv : Move) : GameState :=
  let moving_side := gs0.side_to_move
  let opponent_side := moving_side.opposite
  let gs := { gs0 with en_passant_square := none }
  let gs := match mv with
    | .normal fromSq toSq piece captured _ flags =>
      let gs := if flags.double_push then
          { gs with en_passant_square := some (toSq.backward moving_side) }
        else gs
      let gs := if piece = Piece.King then
          { gs with castling_state := gs.castling_state.remove_all moving_side }
        else gs
      let gs := if piece = Piece.Rook then
          { gs with castling_state := gs.castling_state.remove_rook moving_side fromSq }
        else gs
      let gs := if captured = some Piece.Rook then
          { gs with castling_state := gs.castling_state.remove_rook opponent_side toSq }
        else gs
      if piece = Piece.Pawn ∨ captured.isSome then
        { gs with half_move_clock := 0 }
      else
        { gs with half_move_clock := gs.half_move_clock + 1 }
    | .castle _ _ _ =>
      { gs with
        half_move_clock := gs.half_move_clock + 1
        castling_state := gs.castling_state.remove_all moving_side }
  let gs := if moving_side = Side.Black then
      { gs with full_moves_count := gs.full_moves_count + 1 }
    else gs
  { gs with side_to_move := opponent_side }

/-- `Board::make_move` (move_operations.rs): push `(move, game state)`
onto the history, apply the piece motions of the move, and apply the
game-state updates.  The Rust push panics on a full stack; this
embedding keeps it unbounded, so it agrees with the source exactly on
boards whose history holds fewer than `MAX_MOVES_COUNT` entries. -/
def Board.make_move (b : Board) (mv : Move) : Board :=
  let moving_side := b.game_state.side_to_move
  let bp := match mv with
    | .normal fromSq toSq piece captured promo flags =>
      makeNormalPieces b moving_side fromSq toSq piece captured promo flags
    | .castle _ _ castling_side => makeCastlePieces b moving_side castling_side
  { bitboards := bp.bitboards
    side_occupancies := bp.side_occupancies
    global_occupancy := bp.global_occupancy
    game_state := makeMoveGameState b.game_state mv
    history := ⟨mv, b.game_state⟩ :: b.history }

/-- `Board::unmake_move` (move_operations.rs): pop the top history
entry, restore the saved game state, and reverse the piece motions.
`none` models the panic on an empty history. -/
def Board.unmake_move (b : Board) : Option Board :=
  match b.history with
  | [] => none
  | ⟨mv, game_state⟩ :: rest =>
    let b := { b with history := rest, game_state := game_state }
    let moving_side := b.game_state.side_to_move
    let opponent_side := moving_side.opposite
    match mv with
    | .normal fromSq toSq piece captured promo flags =>
      let placed_piece := promo.getD piece
      let b := b.remove_piece moving_side placed_piece toSq
      let b := b.add_piece moving_side piece fromSq
      match captured with
      | some captured_piece =>
        let captured_sq := if flags.en_passant then toSq.backward moving_side else toSq
        some (b.add_piece opponent_side captured_piece captured_sq)
      | none => some b
    | .castle _ _ castling_side =>
      let kp := CastlingSide.get_castling_positions moving_side .King castling_side
      let rp := CastlingSide.get_castling_positions moving_side .Rook castling_side
      let b := b.remove_piece moving_side .King kp.2
      let b := b.remove_piece moving_side .Rook rp.2
      let b := b.add_piece moving_side .King kp.1
      some (b.add_piece moving_side .Rook rp.1)

/-- `impl PartialEq for Board` (board.rs): compare the piece
bitboards, the occupancies, the game state, and only the *length* of
the history. -/
def boardEq (a b : Board) : Bool :=
  (Side.all.all fun s => Piece.all.all fun p => a.bitboards s p == b.bitboards s p) &&
  (Side.all.all fun s => a.side_occupancies s == b.side_occupancies s) &&
  (a.global_occupancy == b.global_occupancy) &&
  (a.game_state == b.game_state) &&
  (a.history.length == b.history.length)

/-! ## Move generation (move_generator.rs) -/

/-- `push_pawn` (move_generator.rs): one-rank pawn shift. -/
def push_pawn (bb : Nat) (side : Side) : Nat :=
  match side with
  | .White => shl64 bb 8
  | .Black => bb >>> 8

/-- `Side::get_promotion_rank` (enums.rs) as a rank index. -/
def promotionRankIdx (side : Side) : Nat :=
  match side with
  | .White => 7
  | .Black => 0

/-- The `from` square of a quiet pawn push that lands on `bit`
(`(bit as i8 - square_shift) as u8` in move_generator.rs). -/
def pawnPushFrom (bit : Nat) (side : Side) : Square :=
  match side with
  | .White => mkSquare (bit - 8)
  | .Black => mkSquare (bit + 8)

/-- The `from` square of a double pawn push landing on `bit`. -/
def pawnDoublePushFrom (bit : Nat) (side : Side) : Square :=
  match side with
  | .White => mkSquare (bit - 16)
  | .Black => mkSquare (bit + 16)

/-- `generate_pseudo_legal_pawn_moves` (move_generator.rs): quiet
single pushes (split on the promotion rank), double pushes, then per
pawn its captures (promotion captures expanded four-fold) and the en
passant capture.  The capture-piece lookup unwraps in Rust; the
unreachable `None` case (an occupancy bit with no matching piece
bitboard, impossible on coherent boards) emits nothing here. -/
def generate_pseudo_legal_pawn_moves (b : Board) (side : Side) : List Move :=
  let pawn_bb := b.get_bb side .Pawn
  let pawn_one_step_bb := push_pawn pawn_bb side &&& b.get_empty_bb
  let promotion_mask := rank_mask (promotionRankIdx side)
  let one_np := pawn_one_step_bb &&& compl64 promotion_mask
  let one_p := pawn_one_step_bb &&& promotion_mask
  let quiets := (bitIndices one_np).map (fun bit =>
    Move.normal (pawnPushFrom bit side) (mkSquare bit) .Pawn none none .NONE)
  let promo_quiets := (bitIndices one_p).flatMap (fun bit =>
    Piece.PROMOTION_PIECES.map (fun pp =>
      Move.normal (pawnPushFrom bit side) (mkSquare bit) .Pawn none (some pp) .NONE))
  let one_step_mask := rank_mask (match side with | .White => 2 | .Black => 5)
  let pawn_two_steps_bb := push_pawn (pawn_one_step_bb &&& one_step_mask) side &&& b.get_empty_bb
  let doubles := (bitIndices pawn_two_steps_bb).map (fun bit =>
    Move.normal (pawnDoublePushFrom bit side) (mkSquare bit) .Pawn none none .DOUBLE_PUSH)
  let en_passant_sq_bb := match b.game_state.en_passant_square with
    | some e => if e.is_en_passant_target_for side then sqBit e else 0
    | none => 0
  let caps := (squaresOf pawn_bb).flatMap (fun fromSq =>
    let attacks_bb := get_pawn_attacks_mask side fromSq
    let valid_attacks_bb := attacks_bb &&& b.get_occupancy_bb side.opposite
    let normal_caps := (squaresOf valid_attacks_bb).flatMap (fun toSq =>
      match b.get_occupancy_piece side.opposite toSq with
      | some capture_piece =>
        if toSq.rankIdx = promotionRankIdx side then
          Piece.PROMOTION_PIECES.map (fun pp =>
            Move.normal fromSq toSq .Pawn (some capture_piece) (some pp) .NONE)
        else
          [Move.normal fromSq toSq .Pawn (some capture_piece) none .NONE]
      | none => [])
    let ep_caps :=
      if en_passant_sq_bb ≠ 0 then
        let attack_en_passant_bb := attacks_bb &&& en_passant_sq_bb
        if attack_en_passant_bb ≠ 0 then
          [Move.normal fromSq (mkSquare ((bitIndices attack_en_passant_bb).headD 0))
            .Pawn (some .Pawn) none .EN_PASSANT]
        else []
      else []
    normal_caps ++ ep_caps)
  quiets ++ promo_quiets ++ doubles ++ caps

/-- `generate_leaper_pseudo_legal_moves` (move_generator.rs): for each
piece square, quiet moves into empty squares then captures of opposing
occupancy, the captured piece looked up at the destination. -/
def generate_leaper_pseudo_legal_moves (b : Board) (side : Side) (piece : Piece)
    (attacks_mask_fn : Square → Nat) : List Move :=
  (squaresOf (b.get_bb side piece)).flatMap (fun fromSq =>
    let attacks_bb := attacks_mask_fn fromSq
    let quiet_moves_bb := attacks_bb &&& b.get_empty_bb
    let capture_moves_bb := attacks_bb &&& b.get_occupancy_bb side.opposite
    (squaresOf quiet_moves_bb).map (fun toSq =>
      Move.normal fromSq toSq piece none none .NONE) ++
    (squaresOf capture_moves_bb).map (fun toSq =>
      Move.normal fromSq toSq piece (b.get_occupancy_piece side.opposite toSq) none .NONE))

/-- `generate_sliding_pseudo_legal_moves` (move_generator.rs). -/
def generate_sliding_pseudo_legal_moves (b : Board) (side : Side) (piece : Piece)
    (attacks_mask_fn : Square → Nat → Nat) : List Move :=
  (squaresOf (b.get_bb side piece)).flatMap (fun fromSq =>
    let attack_bb := attacks_mask_fn fromSq b.global_occupancy
    let quiet_moves_bb := attack_bb &&& b.get_empty_bb
    let capture_moves_bb := attack_bb &&& b.get_occupancy_bb side.opposite
    (squaresOf quiet_moves_bb).map (fun toSq =>
      Move.normal fromSq toSq piece none none .NONE) ++
    (squaresOf capture_moves_bb).map (fun toSq =>
      Move.normal fromSq toSq piece (b.get_occupancy_piece side.opposite toSq) none .NONE))

/-- `generate_castling_moves` (move_generator.rs): for each still
available castling side, emit the castle when the between squares are
empty and the king's path is unattacked.  The castle move carries the
king from/to squares as stamped by `Move::get_castling_move`. -/
def generate_castling_moves (b : Board) (side : Side) : List Move :=
  (b.game_state.castling_state.get_castlings side).flatMap (fun castling =>
    let masks := match side, castling with
      | .White, .KingSide =>
        (WHITE_KING_SIDE_EMPTY_MASK, WHITE_KING_SIDE_NOT_ATTACKED_MASK)
      | .White, .QueenSide =>
        (WHITE_QUEEN_SIDE_EMPTY_MASK, WHITE_QUEEN_SIDE_NOT_ATTACKED_MASK)
      | .Black, .KingSide =>
        (BLACK_KING_SIDE_EMPTY_MASK, BLACK_KING_SIDE_NOT_ATTACKED_MASK)
      | .Black, .QueenSide =>
        (BLACK_QUEEN_SIDE_EMPTY_MASK, BLACK_QUEEN_SIDE_NOT_ATTACKED_MASK)
    if b.global_occupancy &&& masks.1 = 0 ∧
        (squaresOf masks.2).all (fun square => !(b.is_square_attacked square side.opposite)) then
      [Move.get_castling_move side castling]
    else [])

/-- `Board::generate_pseudo_legal_moves` (move_generator.rs): the
seven generators in their fixed order. -/
def Board.generate_pseudo_legal_moves (b : Board) (side : Side) : List Move :=
  generate_pseudo_legal_pawn_moves b side ++
  generate_leaper_pseudo_legal_moves b side .Knight get_knight_attacks_mask ++
  generate_sliding_pseudo_legal_moves b side .Bishop get_bishop_attacks_mask ++
  generate_sliding_pseudo_legal_moves b side .Rook get_rook_attacks_mask ++
  generate_sliding_pseudo_legal_moves b side .Queen get_queen_attacks_mask ++
  generate_leaper_pseudo_legal_moves b side .King get_king_attacks_mask ++
  generate_castling_moves b side

/-- `Board::generate_legal_moves` (move_generator.rs): keep the
pseudo-legal moves after which the mover's king is not attacked; the
Rust loop makes the move on the board, tests the check, and unmakes,
which in this pure embedding is the check on `make_move b mv`. -/
def Board.generate_legal_moves (b : Board) (side : Side) : List Move :=
  (b.generate_pseudo_legal_moves side).filter (fun mv =>
    !((b.make_move mv).is_in_check side))

/-- `generate_all_legal_moves` (called by searching.rs; the buffered
variant is absent from this snapshot).  Modelled from the spec:
§4.G — legality-filtered pseudo-legal generation into a cleared
buffer, preserving generation order; its contents equal
`generate_legal_moves`. -/
def Board.generate_all_legal_moves (b : Board) (side : Side) : List Move :=
  b.generate_legal_moves side

/-- `generate_legal_captures` (called by the quiescence search; absent
from this snapshot).  Modelled from the spec: §4.G — the captures-only
mode omits quiet moves and quiet pushes and keeps en passant and
capture promotions, followed by the same legality filter; all retained
moves are exactly the capturing legal moves, in generation order. -/
def Board.generate_legal_captures (b : Board) (side : Side) : List Move :=
  (b.generate_legal_moves side).filter Move.is_capture

/-! ## FEN parsing (fen_parser.rs) -/

/-- `ParseFenError` (fen_parser.rs). -/
inductive ParseFenError : Type
  | IncorrectPartsLength : ParseFenError
  | PiecesParse : ParseFenError
  | SideToMoveParse : ParseFenError
  | CastlingRightsParse : ParseFenError
  | EnPassantSquareParse : ParseFenError
  | HalfMoveClockParse : ParseFenError
  | FullMoveCountParse : ParseFenError
deriving DecidableEq, Repr

/-- `Board::default()` (board.rs, derived `Default`): zero bitboards
and occupancies, White to move, no en passant, no castling rights,
zero clocks, empty history. -/
def Board.default : Board :=
  { bitboards := fun _ _ => 0
    side_occupancies := fun _ => 0
    global_occupancy := 0
    game_state :=
      { side_to_move := .White
        en_passant_square := none
        castling_state := ⟨false, false, false, false⟩
        half_move_clock := 0
        full_moves_count := 0 }
    history := [] }

/-- The piece-placement character table of `parse_pieces`
(fen_parser.rs). -/
def pieceOfChar : Char → Option (Side × Piece)
  | 'K' => some (.White, .King)
  | 'Q' => some (.White, .Queen)
  | 'R' => some (.White, .Rook)
  | 'B' => some (.White, .Bishop)
  | 'N' => some (.White, .Knight)
  | 'P' => some (.White, .Pawn)
  | 'k' => some (.Black, .King)
  | 'q' => some (.Black, .Queen)
  | 'r' => some (.Black, .Rook)
  | 'b' => some (.Black, .Bishop)
  | 'n' => some (.Black, .Knight)
  | 'p' => some (.Black, .Pawn)
  | _ => none

/-- The character loop of `parse_pieces` (fen_parser.rs), carrying the
current rank and file.  `set_piece` converts `rank * 8 + file` through
`Square::try_from` (failing at 64 and above), ors the square into the
piece's bitboard, and advances the file. -/
def parsePiecesLoop : List Char → Board → Nat → Nat → Option Board
  | [], b, rank, file =>
    if file = 8 ∧ rank = 0 then some b else none
  | c :: rest, b, rank, file =>
    match pieceOfChar c with
    | some (side, piece) =>
      let idx := rank * 8 + file
      if h : idx < 64 then
        let sq : Square := ⟨idx, h⟩
        let bbNew := updateBB b.bitboards side piece (b.get_bb side piece ||| sqBit sq)
        let b := { b with bitboards := bbNew }
        parsePiecesLoop rest b rank (file + 1)
      else none
    | none =>
      if '1' ≤ c ∧ c ≤ '8' then
        let file := file + (c.toNat - '0'.toNat)
        if file > 8 then none else parsePiecesLoop rest b rank file
      else if c = '/' then
        if file ≠ 8 ∨ rank = 0 then none
        else parsePiecesLoop rest b (rank - 1) 0
      else none

/-- `parse_pieces` (fen_parser.rs): run the placement loop from rank 8
file a and recompute the occupancies. -/
def parse_pieces (b : Board) (part : String) : Except ParseFenError Board :=
  match parsePiecesLoop part.toList b 7 0 with
  | some b => .ok b.recalc_occupancies
  | none => .error .PiecesParse

/-- `parse_side_to_move` (fen_parser.rs). -/
def parse_side_to_move (b : Board) (part : String) : Except ParseFenError Board :=
  match part.toList with
  | ['w'] => .ok { b with game_state := { b.game_state with side_to_move := .White } }
  | ['b'] => .ok { b with game_state := { b.game_state with side_to_move := .Black } }
  | _ => .error .SideToMoveParse

/-- The character loop of `parse_castling_rights` (fen_parser.rs).
The `Castling` enum it ors in is absent from this snapshot; its bit
values are modelled from the spec (§6: any subset of `KQkq` or `-`)
and from the identical `CastlingState` flags of board.rs. -/
def parseCastlingLoop (len : Nat) : List Char → CastlingState → Option CastlingState
  | [], cs => some cs
  | c :: rest, cs =>
    match c with
    | 'K' => parseCastlingLoop len rest { cs with white_kingside := true }
    | 'Q' => parseCastlingLoop len rest { cs with white_queenside := true }
    | 'k' => parseCastlingLoop len rest { cs with black_kingside := true }
    | 'q' => parseCastlingLoop len rest { cs with black_queenside := true }
    | '-' => if len = 1 then parseCastlingLoop len rest ⟨false, false, false, false⟩ else none
    | _ => none

/-- `parse_castling_rights` (fen_parser.rs). -/
def parse_castling_rights (b : Board) (part : String) : Except ParseFenError Board :=
  let cs := part.toList
  if 1 ≤ cs.length ∧ cs.length ≤ 4 then
    match parseCastlingLoop cs.length cs b.game_state.castling_state with
    | some s => .ok { b with game_state := { b.game_state with castling_state := s } }
    | none => .error .CastlingRightsParse
  else .error .CastlingRightsParse

/-- `impl TryFrom<&str> for Square` (enums.rs): a file letter
(either case) followed by a rank digit. -/
def squareFromChars (c1 c2 : Char) : Option Square :=
  let fileOpt : Option Nat :=
    if 'a' ≤ c1 ∧ c1 ≤ 'h' then some (c1.toNat - 'a'.toNat)
    else if 'A' ≤ c1 ∧ c1 ≤ 'H' then some (c1.toNat - 'A'.toNat)
    else none
  let rankOpt : Option Nat :=
    if '1' ≤ c2 ∧ c2 ≤ '8' then some (c2.toNat - '1'.toNat) else none
  match fileOpt, rankOpt with
  | some f, some r => some (mkSquare (r * 8 + f))
  | _, _ => none

/-- `parse_en_passant_square` (fen_parser.rs): `-` clears the square;
a two-character square is accepted iff `Square::can_be_en_passant`
holds (any square of rank 3 or rank 6). -/
def parse_en_passant_square (b : Board) (part : String) : Except ParseFenError Board :=
  match part.toList with
  | ['-'] => .ok { b with game_state := { b.game_state with en_passant_square := none } }
  | [c1, c2] =>
    match squareFromChars c1 c2 with
    | some sq =>
      if sq.can_be_en_passant then
        .ok { b with game_state := { b.game_state with en_passant_square := some sq } }
      else .error .EnPassantSquareParse
    | none => .error .EnPassantSquareParse
  | _ => .error .EnPassantSquareParse

/-- The digit accumulator of Rust's unsigned `FromStr`: all characters
must be digits and there must be at least one. -/
def digitsVal : List Char → Option Nat
  | [] => none
  | cs =>
    cs.foldl
      (fun acc c =>
        match acc with
        | some a => if c.isDigit then some (a * 10 + (c.toNat - '0'.toNat)) else none
        | none => none)
      (some 0)

/-- Rust's `str::parse::<uN>()`: an optional leading `+`, then one or
more digits, rejecting values above the type maximum (overflow
errors). -/
def parseRustUInt (maxVal : Nat) (s : List Char) : Option Nat :=
  let body := match s with
    | '+' :: rest => rest
    | other => other
  match digitsVal body with
  | some v => if v ≤ maxVal then some v else none
  | none => none

/-- `chess_consts::MAX_HALF_MOVES_COUNT`. -/
def MAX_HALF_MOVES_COUNT : Nat := 100

/-- `parse_half_move_clock` (fen_parser.rs): a 1..3 character field
parsing as `u8` and bounded by 100. -/
def parse_half_move_clock (b : Board) (part : String) : Except ParseFenError Board :=
  let cs := part.toList
  if 1 ≤ cs.length ∧ cs.length ≤ 3 then
    match parseRustUInt 255 cs with
    | some x =>
      if x ≤ MAX_HALF_MOVES_COUNT then
        .ok { b with game_state := { b.game_state with half_move_clock := x } }
      else .error .HalfMoveClockParse
    | none => .error .HalfMoveClockParse
  else .error .HalfMoveClockParse

/-- `parse_full_move_number` (fen_parser.rs): a 1..5 character field
parsing as `u16`. -/
def parse_full_move_number (b : Board) (part : String) : Except ParseFenError Board :=
  let cs := part.toList
  if 1 ≤ cs.length ∧ cs.length ≤ 5 then
    match parseRustUInt 65535 cs with
    | some x => .ok { b with game_state := { b.game_state with full_moves_count := x } }
    | none => .error .FullMoveCountParse
  else .error .FullMoveCountParse

/-- `fen.split(' ')` (fen_parser.rs): split the character list at
every space, keeping empty fragments, exactly as Rust's `split` with a
`char` pattern. -/
def splitSpaces : List Char → List (List Char)
  | [] => [[]]
  | c :: rest =>
    if c = ' ' then [] :: splitSpaces rest
    else
      match splitSpaces rest with
      | [] => [[c]]
      | g :: gs => (c :: g) :: gs

/-- `parse_fen_string` (fen_parser.rs): split on single spaces, accept
a 4-field FEN by appending clock `0` and move `1`, demand six fields,
and run the six field parsers in order. -/
def parse_fen_string (fen : String) : Except ParseFenError Board := do
  let parts := (splitSpaces fen.toList).map String.mk
  let parts := if parts.length = 4 then parts ++ ["0", "1"] else parts
  if parts.length ≠ 6 then
    throw .IncorrectPartsLength
  else
    let b := Board.default
    let b ← parse_pieces b (parts.getD 0 "")
    let b ← parse_side_to_move b (parts.getD 1 "")
    let b ← parse_castling_rights b (parts.getD 2 "")
    let b ← parse_en_passant_square b (parts.getD 3 "")
    let b ← parse_half_move_clock b (parts.getD 4 "")
    let b ← parse_full_move_number b (parts.getD 5 "")
    return b

/-- `chess_consts::fen_strings::START_POS_FEN`. -/
def START_POS_FEN : String := "rnbqkbnr/pppppppp/8/8/8/8/PPPPPPPP/RNBQKBNR w KQkq - 0 1"

/-- `chess_consts::fen_strings::EMPTY_BOARD_FEN`. -/
def EMPTY_BOARD_FEN : String := "8/8/8/8/8/8/8/8 w - -"

/-- `Board::get_start_position` (board.rs): parse the start FEN and
unwrap (the parse is known to succeed; the unreachable error branch
falls back to the default board). -/
def Board.get_start_position : Board :=
  match parse_fen_string START_POS_FEN with
  | .ok b => b
  | .error _ => Board.default

/-! ## Evaluation (evaluation.rs) -/

/-- `MATE_EVALUATION` (evaluation.rs). -/
def MATE_EVALUATION : Int := 30000

/-- `piece_scores::get_piece_score` (evaluation.rs). -/
def get_piece_score (piece : Piece) (side : Side) : Int :=
  let w : Int := match piece with
    | .Pawn => 100
    | .Knight => 300
    | .Bishop => 350
    | .Rook => 500
    | .Queen => 1000
    | .King => 10000
  match side with
  | .White => w
  | .Black => -w

/-- `PAWN_PST_TABLE` (evaluation.rs). -/
def PAWN_PST_TABLE : List Int :=
  [0, 0, 0, 0, 0, 0, 0, 0,
   30, 30, 30, 40, 40, 30, 30, 30,
   20, 20, 20, 30, 30, 30, 20, 20,
   10, 10, 10, 20, 20, 10, 10, 10,
   5, 5, 10, 20, 20, 5, 5, 5,
   0, 0, 0, 5, 5, 0, 0, 0,
   0, 0, 0, -10, -10, 0, 0, 0,
   0, 0, 0, 0, 0, 0, 0, 0]

/-- `KNIGHT_PST_TABLE` (evaluation.rs). -/
def KNIGHT_PST_TABLE : List Int :=
  [5, 0, 0, 0, 0, 0, 0, -5,
   -5, 0, 0, 10, 10, 0, 0, -5,
   -5, 5, 20, 20, 20, 20, 5, -5,
   -5, 10, 20, 30, 30, 20, 10, -5,
   -5, 10, 20, 30, 30, 20, 10, -5,
   -5, 5, 20, 10, 10, 20, 5, -5,
   -5, 0, 0, 0, 0, 0, 0, -5,
   -5, -10, 0, 0, 0, 0, -10, -5]

/-- `BISHOP_PST_TABLE` (evaluation.rs). -/
def BISHOP_PST_TABLE : List Int :=
  [0, 0, 0, 0, 0, 0, 0, 0,
   0, 0, 0, 0, 0, 0, 0, 0,
   0, 0, 0, 10, 10, 0, 0, 0,
   0, 0, 10, 15, 15, 10, 0, 0,
   0, 0, 10, 15, 15, 10, 0, 0,
   0, 10, 0, 0, 0, 0, 10, 0,
   0, 15, 0, 0, 0, 0, 15, 0,
   0, 0, -10, 0, 0, -10, 0, 0]

/-- `ROOK_PST_TABLE` (evaluation.rs). -/
def ROOK_PST_TABLE : List Int :=
  [50, 50, 50, 50, 50, 50, 50, 50,
   50, 50, 50, 50, 50, 50, 50, 50,
   0, 0, 10, 20, 20, 10, 0, 0,
   0, 0, 10, 20, 20, 10, 0, 0,
   0, 0, 10, 20, 20, 10, 0, 0,
   0, 0, 10, 20, 20, 10, 0, 0,
   0, 0, 10, 20, 20, 10, 0, 0,
   0, 0, 0, 20, 20, 0, 0, 0]

/-- `QUEEN_PST_TABLE` (evaluation.rs). -/
def QUEEN_PST_TABLE : List Int :=
  [-20, -10, -10, -5, -5, -10, -10, -20,
   -10, 0, 5, 0, 0, 0, 0, -10,
   -10, 5, 5, 5, 5, 5, 0, -10,
   0, 0, 5, 5, 5, 5, 0, -5,
   -5, 0, 5, 5, 5, 5, 0, -5,
   -10, 0, 5, 5, 5, 5, 0, -10,
   -10, 0, 0, 0, 0, 0, 0, -10,
   -20, -10, -10, -5, -5, -10, -10, -20]

/-- `KING_MIDGAME_PST_TABLE` (evaluation.rs). -/
def KING_MIDGAME_PST_TABLE : List Int :=
  [-30, -40, -40, -50, -50, -40, -40, -30,
   -30, -40, -40, -50, -50, -40, -40, -30,
   -30, -40, -40, -50, -50, -40, -40, -30,
   -30, -40, -40, -50, -50, -40, -40, -30,
   -20, -30, -30, -40, -40, -30, -30, -20,
   -10, -20, -20, -20, -20, -20, -20, -10,
   20, 20, 0, 0, 0, 0, 20, 20,
   20, 30, 10, 0, 0, 10, 30, 20]

/-- `KING_ENDGAME_PST_TABLE` (evaluation.rs). -/
def KING_ENDGAME_PST_TABLE : List Int :=
  [-50, -30, -30, -30, -30, -30, -30, -50,
   -30, -30, 0, 0, 0, 0, -30, -30,
   -30, -10, 20, 30, 30, 20, -10, -30,
   -30, -10, 30, 40, 40, 30, -10, -30,
   -30, -10, 30, 40, 40, 30, -10, -30,
   -30, -10, 20, 30, 30, 20, -10, -30,
   -30, -20, -10, 0, 0, -10, -20, -30,
   -50, -40, -30, -20, -20, -30, -40, -50]

/-- `pst_tables::get_pst_value` (evaluation.rs): White indices are
mirrored with `xor 56`. -/
def get_pst_value (table : List Int) (sq : Square) (side : Side) : Int :=
  let index := match side with
    | .White => sq.val ^^^ 56
    | .Black => sq.val
  table.getD index 0

/-- `calc_phase` (evaluation.rs): knights + bishops + 2 rooks +
4 queens of both sides, clamped to [0, 24]. -/
def calc_phase (b : Board) : Int :=
  let n : Int := countOnes (b.get_bb .White .Knight) + countOnes (b.get_bb .Black .Knight)
  let bi : Int := countOnes (b.get_bb .White .Bishop) + countOnes (b.get_bb .Black .Bishop)
  let r : Int := countOnes (b.get_bb .White .Rook) + countOnes (b.get_bb .Black .Rook)
  let q : Int := countOnes (b.get_bb .White .Queen) + countOnes (b.get_bb .Black .Queen)
  min (max (n + bi + 2 * r + 4 * q) 0) 24

/-- The PST selected for a piece at the current phase (evaluation.rs
`evalute` body). -/
def pstFor (piece : Piece) (phase : Int) : List Int :=
  match piece with
  | .Pawn => PAWN_PST_TABLE
  | .Knight => KNIGHT_PST_TABLE
  | .Bishop => BISHOP_PST_TABLE
  | .Rook => ROOK_PST_TABLE
  | .Queen => QUEEN_PST_TABLE
  | .King => if 0 ≤ phase ∧ phase ≤ 10 then KING_ENDGAME_PST_TABLE else KING_MIDGAME_PST_TABLE

/-- `evalute` (evaluation.rs): material plus piece-square values,
White positive, negated for Black's perspective. -/
def evalute (b : Board) (side : Side) : Int :=
  let phase := calc_phase b
  let score := Piece.all.foldl
    (fun score piece =>
      let white_bb := b.get_bb .White piece
      let black_bb := b.get_bb .Black piece
      let score := score + (countOnes white_bb : Int) * get_piece_score piece .White
      let score := score + (countOnes black_bb : Int) * get_piece_score piece .Black
      let pst := pstFor piece phase
      let score := (squaresOf white_bb).foldl (fun s sq => s + get_pst_value pst sq .White) score
      (squaresOf black_bb).foldl (fun s sq => s - get_pst_value pst sq .Black) score)
    0
  match side with
  | .White => score
  | .Black => -score

/-- `evalute_cur_side` (evaluation.rs). -/
def evalute_cur_side (b : Board) : Int :=
  evalute b b.game_state.side_to_move

/-! ## Move ordering (move_ordering.rs) -/

/-- `MVV_TABLE` (move_ordering.rs), rows indexed by attacker, columns
by victim. -/
def MVV_TABLE : List (List Int) :=
  [[105, 205, 305, 405, 505, 605],
   [104, 204, 304, 404, 504, 604],
   [103, 203, 303, 403, 503, 603],
   [102, 202, 302, 402, 502, 602],
   [101, 201, 301, 401, 501, 601],
   [100, 200, 300, 400, 500, 600]]

/-- `get_mvv_score` (move_ordering.rs). -/
def get_mvv_score (attacker victim : Piece) : Int :=
  (MVV_TABLE.getD attacker.index []).getD victim.index 0

/-- The killer-move slots (`KILLER_MOVES` in move_ordering.rs): two
optional moves per ply. -/
structure Killers : Type where
  slot0 : Nat → Option Move
  slot1 : Nat → Option Move

/-- `clear_killers` (move_ordering.rs). -/
def clear_killers : Killers := ⟨fun _ => none, fun _ => none⟩

/-- `update_killers` (move_ordering.rs): on a quiet cutoff, shift slot
0 into slot 1 and store the move in slot 0 unless already present. -/
def update_killers (km : Killers) (mv : Move) (ply : Nat) : Killers :=
  if km.slot0 ply = some mv then km
  else
    ⟨Function.update km.slot0 ply (some mv), Function.update km.slot1 ply (km.slot0 ply)⟩

/-- The history-heuristic table (`HISTORY_MOVES` in move_ordering.rs):
a 64×64 table of `u64` counters. -/
def HistTable : Type := Nat → Nat → Nat

/-- The all-zero history table. -/
def histZero : HistTable := fun _ _ => 0

/-- `update_history` (move_ordering.rs): saturating add of `depth²`
at (from, to). -/
def update_history (h : HistTable) (mv : Move) (depth : Nat) : HistTable :=
  let ft := mv.get_from_to
  let f := ft.1.val
  let t := ft.2.val
  fun x y => if x = f ∧ y = t then min (h f t + depth * depth) M64 else h x y

/-- `normalize_history` (move_ordering.rs): halve every counter. -/
def normalize_history (h : HistTable) : HistTable :=
  fun x y => h x y >>> 1

/-- Rust's `u64 as i32` cast: keep the low 32 bits and reinterpret
them as a signed 32-bit value. -/
def u64AsI32 (n : Nat) : Int :=
  let r : Nat := n % 2 ^ 32
  if r < 2 ^ 31 then (r : Int) else (r : Int) - 2 ^ 32

/-- `score_move` (move_ordering.rs): captures take their MVV-LVA score
plus 100000; otherwise 0 in captures-only mode, else killer scores
90000/80000, else the history counter cast to `i32`. -/
def score_move (km : Killers) (h : HistTable) (mv : Move) (ply : Nat)
    (only_captures : Bool) : Int :=
  if mv.is_capture then
    match mv with
    | .normal _ _ piece (some captured) _ _ => get_mvv_score piece captured + 100000
    | _ => 0
  else
    if only_captures then 0
    else if km.slot0 ply = some mv then 90000
    else if km.slot1 ply = some mv then 80000
    else
      let ft := mv.get_from_to
      u64AsI32 (h ft.1.val ft.2.val)

/-- One step of the insertion sort of `sort_moves`
(move_ordering.rs): the scanned element shifts left past strictly
smaller scores, so it lands after every element scoring at least as
much. -/
def insertMoveDesc (x : Move × Int) : List (Move × Int) → List (Move × Int)
  | [] => [x]
  | y :: ys => if y.2 < x.2 then x :: y :: ys else y :: insertMoveDesc x ys

/-- `sort_moves` (move_ordering.rs): score every move once, then
stable insertion sort in descending score order. -/
def sort_moves (km : Killers) (h : HistTable) (moves : List Move) (ply : Nat)
    (only_captures : Bool) : List Move :=
  if moves.length ≤ 1 then moves
  else
    ((moves.map (fun m => (m, score_move km h m ply only_captures))).foldl
      (fun acc x => insertMoveDesc x acc) []).map Prod.fst

/-! ## Search (searching.rs, evaluation.rs quiescence) -/

/-- `INFINITY` (searching.rs): `1_000_000_00`. -/
def INFINITY : Int := 100000000

/-- `ONLY_CAPTURES_DEPTH` (searching.rs). -/
def ONLY_CAPTURES_DEPTH : Nat := 2

/-- `chess_consts::MAX_PLY`.  Modelled from the spec: the constant is
referenced by searching.rs and move_ordering.rs but absent from this
snapshot's chess_consts.rs; the spec (§4.I) only requires a per-ply
bound covering the search depth, and none of the theorems below
depend on its exact value. -/
def MAX_PLY : Nat := 64

/-- The stop token as seen by a search: an oracle giving the value of
the shared atomic flag at each successive `is_stopped` poll.  A search
threads the poll count through its recursion. -/
def StopOracle : Type := Nat → Bool

/-- The mutable search-global state threaded through `negamax_ab`:
killer slots, the history table, and the next poll index. -/
structure SearchState : Type where
  killers : Killers
  hist : HistTable
  poll : Nat

/-- The capture loop of `quiescence_eval` (evaluation.rs): make each
legal capture, recurse with the negated window one buffer down, fail
high at `beta`, otherwise raise `alpha`. -/
def quiescence_loop (recur : Board → Int → Int → Option Int) (b : Board) (beta : Int) :
    List Move → Int → Option Int
  | [], alpha => some alpha
  | mv :: rest, alpha =>
    match recur (b.make_move mv) (-beta) (-alpha) with
    | none => none
    | some s =>
      let score := -s
      if score ≥ beta then some beta
      else quiescence_loop recur b beta rest (if score > alpha then score else alpha)

/-- `quiescence_eval` (evaluation.rs): stand-pat evaluation with beta
cutoff, then the legal captures only.  `bufs` counts the remaining
move buffers; `none` models the `split_first_mut().unwrap()` panic
when they run out. -/
def quiescence_eval : Nat → Board → Int → Int → Option Int
  | bufs, b, alpha, beta =>
    let eval_score := evalute_cur_side b
    if eval_score ≥ beta then some beta
    else
      let alpha := if eval_score > alpha then eval_score else alpha
      match bufs with
      | 0 => none
      | bufs' + 1 =>
        quiescence_loop (quiescence_eval bufs') b beta
          (b.generate_legal_captures b.game_state.side_to_move) alpha

/-- The move loop of `negamax_ab` (searching.rs): poll the stop token
before each move (returning `alpha` before any score, else the best
score so far), recurse with the negated window below `max(best,
alpha)`, and on a beta cutoff by a quiet non-promotion move update the
killer and history tables before breaking. -/
def negamax_loop (recur : Board → Int → Int → SearchState → Option (Int × SearchState))
    (b : Board) (alpha beta : Int) (ply depth : Nat) (stop : StopOracle) :
    List Move → Int → SearchState → Option (Int × SearchState)
  | [], best, st => some (best, st)
  | mv :: rest, best, st =>
    let cur_alpha := if best > alpha then best else alpha
    if stop st.poll then
      some (if best = -INFINITY then alpha else best, { st with poll := st.poll + 1 })
    else
      let st := { st with poll := st.poll + 1 }
      match recur (b.make_move mv) (-beta) (-cur_alpha) st with
      | none => none
      | some (s, st) =>
        let score := -s
        let best := if score > best then score else best
        if score ≥ beta then
          if !mv.is_capture && !mv.is_promo then
            some (best, { st with
              killers := update_killers st.killers mv ply
              hist := update_history st.hist mv depth })
          else some (best, st)
        else negamax_loop recur b alpha beta ply depth stop rest best st

/-- `negamax_ab` (searching.rs): fifty-move draw at a half-move clock
of 100, mate/stalemate scores on an empty legal move list, quiescence
at depth 0, otherwise the sorted move loop (captures-only sorting at
depth ≤ 2).  The first argument counts the remaining move buffers
(the `bufs` slice); `none` models the buffer-exhaustion panic.  The
process-wide node counter is diagnostic only and not modelled. -/
def negamax_ab : Nat → Board → Nat → Int → Int → Nat → StopOracle → SearchState →
    Option (Int × SearchState)
  | bufs, b, depth, alpha, beta, ply, stop, st =>
    if b.game_state.half_move_clock ≥ 100 then some (0, st)
    else
      match bufs with
      | 0 => none
      | bufs' + 1 =>
        let side_to_move := b.game_state.side_to_move
        let cur := b.generate_all_legal_moves side_to_move
        if cur.length = 0 then
          some (if b.is_in_check side_to_move then -MATE_EVALUATION + ply else 0, st)
        else if depth = 0 then
          (quiescence_eval (bufs' + 1) b alpha beta).map (fun v => (v, st))
        else
          let only_captures := depth ≤ ONLY_CAPTURES_DEPTH
          let sorted := sort_moves st.killers st.hist cur ply only_captures
          negamax_loop
            (fun b2 a2 be2 st2 => negamax_ab bufs' b2 (depth - 1) a2 be2 (ply + 1) stop st2)
            b alpha beta ply depth stop sorted (-INFINITY) st

/-- The root move loop of `search_bestmove` (searching.rs): break on
the stop token keeping the best move so far, otherwise recurse with
the full window and track the highest score and `alpha`. -/
def root_loop (b : Board) (depth : Nat) (stop : StopOracle) :
    List Move → Move → Int → Int → Int → SearchState → Option (Move × SearchState)
  | [], best_mv, _, _, _, st => some (best_mv, st)
  | mv :: rest, best_mv, best_score, alpha, beta, st =>
    if stop st.poll then some (best_mv, { st with poll := st.poll + 1 })
    else
      let st := { st with poll := st.poll + 1 }
      match negamax_ab (MAX_PLY - 1) (b.make_move mv) (depth - 1) (-beta) (-alpha) 1 stop st with
      | none => none
      | some (s, st) =>
        let score := -s
        let best_mv := if score > best_score then mv else best_mv
        let best_score := if score > best_score then score else best_score
        let alpha := if score > alpha then score else alpha
        root_loop b depth stop rest best_mv best_score alpha beta st

/-- `search_bestmove` (searching.rs): clear the killers, halve the
history, generate the root legal moves (`None` when there are none),
sort them at ply 0, and run the root loop over them; the initial best
move is the first sorted move.  The outer `Option` models the panic
paths (buffer exhaustion in a deeper recursion); the inner one is the
"no move" result. -/
def search_bestmove (b : Board) (depth : Nat) (stop : StopOracle) (hist0 : HistTable) :
    Option (Option Move × SearchState) :=
  let st : SearchState := ⟨clear_killers, normalize_history hist0, 0⟩
  let side := b.game_state.side_to_move
  let cur := b.generate_all_legal_moves side
  if cur.length = 0 then some (none, st)
  else
    let only_captures := depth ≤ ONLY_CAPTURES_DEPTH
    let sorted := sort_moves st.killers st.hist cur 0 only_captures
    match sorted with
    | [] => some (none, st)
    | mv0 :: _ =>
      match root_loop b depth stop sorted mv0 (-INFINITY) (-INFINITY) INFINITY st with
      | none => none
      | some (mv, st) => some (some mv, st)

/-! ## UCI serialization and the worker's Go arm (uci.rs,
messaging.rs) -/

/-- `impl Display for Square` (enums.rs): file letter then rank
digit. -/
def squareName (sq : Square) : String :=
  String.mk [Char.ofNat ('a'.toNat + sq.fileIdx), Char.ofNat ('1'.toNat + sq.rankIdx)]

/-- `serialize_move_to_uci_str` (uci.rs): `<from><to>` with a
promotion letter appended; a castle serializes the king's from/to
squares for the moving side. -/
def serialize_move_to_uci_str (mv : Move) (side : Side) : String :=
  match mv with
  | .normal fromSq toSq _ _ promo _ =>
    let base := squareName fromSq ++ squareName toSq
    match promo with
    | some .Knight => base ++ "n"
    | some .Bishop => base ++ "b"
    | some .Rook => base ++ "r"
    | some .Queen => base ++ "q"
    | some _ => base
    | none => base
  | .castle _ _ castling_side =>
    let p := CastlingSide.get_castling_positions side .King castling_side
    squareName p.1 ++ squareName p.2

/-- The search-thread body spawned by the `WorkerCmd::Go` arm of
`spawn_worker` (messaging.rs): it generates the legal moves of the
cloned position and sends back a *randomly chosen* one, serialized to
UCI.  `pick` abstracts the RNG draw — `rng.random_range(0..len)`
returns `pick % len` for some arbitrary `pick` — and `none` models the
panic of `random_range` on the empty range when the position has no
legal moves (no best-move string is ever sent in that case).  No
search id exists in this code path and `search_bestmove` is not
called. -/
def go_thread_result (b : Board) (pick : Nat) : Option String :=
  let moving_side := b.game_state.side_to_move
  let moves := b.generate_legal_moves moving_side
  match moves with
  | [] => none
  | _ =>
    (moves.get? (pick % moves.length)).map (fun mv => serialize_move_to_uci_str mv moving_side)

/-! ## Board invariants (spec §3) and move well-formedness -/

/-- The union of one side's six piece bitboards, in `Piece::all`
order (the value `recalc_occupancies` assigns to the side
occupancy). -/
def sideUnion (b : Board) (s : Side) : Nat :=
  Piece.all.foldl (fun acc p => acc ||| b.get_bb s p) 0

/-- The board invariants of spec §3: `u64`-sized bitboards, pairwise
disjoint piece bitboards, side occupancies equal to their sides'
unions, the global occupancy their union, exactly one king per side,
and an en-passant square that is a capture target for the side to
move, is empty, and has an opposing pawn one rank behind it (the
state-level content of "set only immediately after a double push"). -/
def BoardInv (b : Board) : Prop :=
  (∀ s p, b.get_bb s p < 2 ^ 64) ∧
  (∀ s p s2 p2, ¬(s = s2 ∧ p = p2) → b.get_bb s p &&& b.get_bb s2 p2 = 0) ∧
  (∀ s, b.get_occupancy_bb s = sideUnion b s) ∧
  (b.global_occupancy = b.get_occupancy_bb .White ||| b.get_occupancy_bb .Black) ∧
  (∀ s, countOnes (b.get_bb s .King) = 1) ∧
  (∀ e, b.game_state.en_passant_square = some e →
    e.is_en_passant_target_for b.game_state.side_to_move = true ∧
    b.global_occupancy.testBit e.val = false ∧
    (b.get_bb b.game_state.side_to_move.opposite .Pawn).testBit
      ((e.backward b.game_state.side_to_move).val) = true)

/-- Executable form of `BoardInv`, quantifying over the explicit
side and piece lists. -/
def boardInvCheck (b : Board) : Bool :=
  (Side.all.all fun s => Piece.all.all fun p => decide (b.get_bb s p < 2 ^ 64)) &&
  (Side.all.all fun s => Piece.all.all fun p =>
    Side.all.all fun s2 => Piece.all.all fun p2 =>
      (decide (s = s2) && decide (p = p2)) || (b.get_bb s p &&& b.get_bb s2 p2 == 0)) &&
  (Side.all.all fun s => b.get_occupancy_bb s == sideUnion b s) &&
  (b.global_occupancy == b.get_occupancy_bb .White ||| b.get_occupancy_bb .Black) &&
  (Side.all.all fun s => countOnes (b.get_bb s .King) == 1) &&
  (match b.game_state.en_passant_square with
   | none => true
   | some e =>
     e.is_en_passant_target_for b.game_state.side_to_move &&
     !(b.global_occupancy.testBit e.val) &&
     (b.get_bb b.game_state.side_to_move.opposite .Pawn).testBit
       ((e.backward b.game_state.side_to_move).val))

/-- Castling-placement coherence: every castling right still present
has the side's king on its original square and the corresponding rook
on its corner square. -/
def castlingCoherent (b : Board) : Prop :=
  (b.game_state.castling_state.white_kingside = true →
    (b.get_bb .White .King).testBit 4 = true ∧ (b.get_bb .White .Rook).testBit 7 = true) ∧
  (b.game_state.castling_state.white_queenside = true →
    (b.get_bb .White .King).testBit 4 = true ∧ (b.get_bb .White .Rook).testBit 0 = true) ∧
  (b.game_state.castling_state.black_kingside = true →
    (b.get_bb .Black .King).testBit 60 = true ∧ (b.get_bb .Black .Rook).testBit 63 = true) ∧
  (b.game_state.castling_state.black_queenside = true →
    (b.get_bb .Black .King).testBit 60 = true ∧ (b.get_bb .Black .Rook).testBit 56 = true)

/-- The structural facts about a move, relative to the board it is
played on, that `make_move` / `unmake_move` rely on: the mover sits on
its from square; a quiet destination is globally empty; a normal
capture has the captured piece on the destination; an en-passant
capture takes a pawn one rank behind an empty destination; a promotion
changes the piece kind.  Castles have king and rook on their from
squares and both destination squares globally empty.  Every
pseudo-legal move of an invariant-satisfying, castling-coherent board
satisfies this. -/
def MoveOk (b : Board) : Move → Prop
  | .normal fromSq toSq piece captured promo flags =>
    let stm := b.game_state.side_to_move
    (b.get_bb stm piece).testBit fromSq.val = true ∧
    (match captured, flags.en_passant with
     | none, _ => b.global_occupancy.testBit toSq.val = false
     | some cp, false => (b.get_bb stm.opposite cp).testBit toSq.val = true
     | some cp, true =>
       cp = Piece.Pawn ∧ b.global_occupancy.testBit toSq.val = false ∧
       (b.get_bb stm.opposite .Pawn).testBit ((toSq.backward stm).val) = true) ∧
    (∀ pp, promo = some pp → pp ≠ piece)
  | .castle _ _ castling_side =>
    let stm := b.game_state.side_to_move
    let kp := CastlingSide.get_castling_positions stm .King castling_side
    let rp := CastlingSide.get_castling_positions stm .Rook castling_side
    (b.get_bb stm .King).testBit kp.1.val = true ∧
    (b.get_bb stm .Rook).testBit rp.1.val = true ∧
    b.global_occupancy.testBit kp.2.val = false ∧
    b.global_occupancy.testBit rp.2.val = false

/-- The plain decimal value of a digit string (spec §6: numeric FEN
fields are decimal integers). -/
def decimalValue (ds : List Char) : Nat :=
  ds.foldl (fun a c => 10 * a + (c.toNat - '0'.toNat)) 0

/-- A probe FEN with an empty board, the given side to move, and the
given square in the en-passant field (used by the claim-C5 theorem). -/
def epProbeFen (s : Side) (sq : Square) : String :=
  "8/8/8/8/8/8/8/8 " ++ (match s with | .White => "w" | .Black => "b") ++ " - " ++
    squareName sq ++ " 0 1"

/-- Recursive form of `build_blocker_mask`, used only in the proofs:
bit `j` of the index selects the `j`-th set-bit square of the list. -/
def buildRec (i : Nat) : List Nat → Nat
  | [] => 0
  | b :: rest => (if i % 2 = 1 then 1 <<< b else 0) ||| buildRec (i / 2) rest

/-! ## Bitboard toolkit lemmas -/

theorem sqBit_eq (sq : Square) : sqBit sq = 2 ^ sq.val := by
  simp [sqBit, Nat.shiftLeft_eq]

theorem testBit_M64 (i : Nat) : M64.testBit i = decide (i < 64) := by
  rw [M64]
  exact Nat.testBit_two_pow_sub_one 64 i

theorem testBit_compl64 (m i : Nat) :
    (compl64 m).testBit i = (decide (i < 64)).xor (m.testBit i) := by
  simp [compl64, Nat.testBit_xor, testBit_M64]

theorem testBit_of_ge_64 {x : Nat} (hx : x < 2 ^ 64) {i : Nat} (hi : 64 ≤ i) :
    x.testBit i = false :=
  Nat.testBit_lt_two_pow (lt_of_lt_of_le hx (Nat.pow_le_pow_right (by norm_num) hi))

theorem testBit_compl64_of_lt {m i : Nat} (hi : i < 64) :
    (compl64 m).testBit i = !(m.testBit i) := by
  simp [testBit_compl64, hi]

theorem testBit_wrap64 (x i : Nat) :
    (wrap64 x).testBit i = (decide (i < 64) && x.testBit i) := by
  rw [wrap64]
  exact Nat.testBit_mod_two_pow x 64 i

theorem testBit_shl64 (x n i : Nat) :
    (shl64 x n).testBit i = (decide (i < 64) && decide (n ≤ i) && x.testBit (i - n)) := by
  simp [shl64, testBit_wrap64, Nat.testBit_shiftLeft, Bool.and_assoc]

theorem mem_bitIndices {bb i : Nat} : i ∈ bitIndices bb ↔ i < 64 ∧ bb.testBit i = true := by
  simp [bitIndices, List.mem_filter, List.mem_range, and_comm]

theorem mem_squaresOf {bb : Nat} {sq : Square} (h : sq ∈ squaresOf bb) :
    bb.testBit sq.val = true := by
  rcases List.mem_map.mp h with ⟨i, hi, rfl⟩
  rcases mem_bitIndices.mp hi with ⟨hlt, hbit⟩
  simpa [mkSquare, Nat.mod_eq_of_lt hlt] using hbit

theorem mkSquare_val {i : Nat} (h : i < 64) : (mkSquare i).val = i := by
  simp [mkSquare, Nat.mod_eq_of_lt h]

theorem bitIndices_two_pow {k : Nat} (hk : k < 64) : bitIndices (2 ^ k) = [k] := by
  have : ∀ n, k < n → (List.range n).filter (fun i => (2 ^ k).testBit i) = [k] := by
    intro n hn
    induction n with
    | zero => omega
    | succ m ih =>
      rw [List.range_succ, List.filter_append]
      by_cases hm : k < m
      · rw [ih hm]
        have : (2 ^ k).testBit m = false := Nat.testBit_two_pow_of_ne (by omega)
        simp [this]
      · have hkm : k = m := by omega
        subst hkm
        have hempty : (List.range k).filter (fun i => (2 ^ k).testBit i) = [] := by
          apply List.filter_eq_nil_iff.mpr
          intro a ha
          have : (2 ^ k).testBit a = false :=
            Nat.testBit_two_pow_of_ne (by have := List.mem_range.mp ha; omega)
          simp [this]
        simp [hempty, Nat.testBit_two_pow_self]
  simpa [bitIndices] using this 64 hk

theorem land_eq_zero_testBit {x m : Nat} (h : x &&& m = 0) {i : Nat}
    (hm : m.testBit i = true) : x.testBit i = false := by
  by_contra hx
  have hx' : x.testBit i = true := by
    cases hxe : x.testBit i with
    | false => exact absurd hxe hx
    | true => rfl
  have : (x &&& m).testBit i = true := by
    simp [Nat.testBit_and, hx', hm]
  rw [h] at this
  simp at this

theorem testBit_ne_zero {x i : Nat} (h : x.testBit i = true) : x ≠ 0 := by
  intro hx
  subst hx
  simp at h

/-- Clear a set bit then set it back: identity on `u64` values. -/
theorem clear_set_bit {x k : Nat} (hx : x < 2 ^ 64) (hk : k < 64)
    (h : x.testBit k = true) : (x &&& compl64 (2 ^ k)) ||| 2 ^ k = x := by
  apply Nat.eq_of_testBit_eq
  intro i
  by_cases hi : i < 64
  · by_cases hik : i = k
    · subst hik
      simp [Nat.testBit_or, Nat.testBit_and, h, Nat.testBit_two_pow_self]
    · have : (2 ^ k).testBit i = false := Nat.testBit_two_pow_of_ne (by omega)
      simp [Nat.testBit_or, Nat.testBit_and, this, testBit_compl64_of_lt hi]
  · have h64 : 64 ≤ i := by omega
    have hk2 : (2 ^ k : Nat) < 2 ^ 64 := Nat.pow_lt_pow_right (by norm_num) hk
    simp [Nat.testBit_or, Nat.testBit_and, testBit_of_ge_64 hx h64,
      testBit_of_ge_64 hk2 h64]

/-- Set a clear bit then clear it again: identity on `u64` values. -/
theorem set_clear_bit {x k : Nat} (hx : x < 2 ^ 64) (hk : k < 64)
    (h : x.testBit k = false) : (x ||| 2 ^ k) &&& compl64 (2 ^ k) = x := by
  apply Nat.eq_of_testBit_eq
  intro i
  by_cases hi : i < 64
  · by_cases hik : i = k
    · subst hik
      simp [Nat.testBit_or, Nat.testBit_and, h, Nat.testBit_two_pow_self,
        testBit_compl64_of_lt hi]
    · have : (2 ^ k).testBit i = false := Nat.testBit_two_pow_of_ne (by omega)
      simp [Nat.testBit_or, Nat.testBit_and, this, testBit_compl64_of_lt hi]
  · have h64 : 64 ≤ i := by omega
    have hk2 : (2 ^ k : Nat) < 2 ^ 64 := Nat.pow_lt_pow_right (by norm_num) hk
    simp [Nat.testBit_or, Nat.testBit_and, testBit_of_ge_64 hx h64,
      testBit_of_ge_64 hk2 h64]

end Orion

namespace Orion

theorem side_opposite_ne (s : Side) : s.opposite ≠ s := by
  cases s <;> simp [Side.opposite]

theorem eq_opposite_of_ne {s t : Side} (h : s ≠ t) : s = t.opposite := by
  cases s <;> cases t <;> simp_all [Side.opposite]

theorem testBit_sideUnion (b : Board) (s : Side) (i : Nat) :
    (sideUnion b s).testBit i =
      ((b.get_bb s .Pawn).testBit i || (b.get_bb s .Knight).testBit i ||
       (b.get_bb s .Bishop).testBit i || (b.get_bb s .Rook).testBit i ||
       (b.get_bb s .Queen).testBit i || (b.get_bb s .King).testBit i) := by
  simp [sideUnion, Piece.all, Nat.testBit_or, Bool.or_assoc]

theorem bb_subset_occ {b : Board} (hinv : BoardInv b) {s : Side} {p : Piece} {i : Nat}
    (h : (b.get_bb s p).testBit i = true) : (b.get_occupancy_bb s).testBit i = true := by
  rw [hinv.2.2.1 s, testBit_sideUnion]
  cases p <;> simp [h]

theorem occ_subset_global {b : Board} (hinv : BoardInv b) {s : Side} {i : Nat}
    (h : (b.get_occupancy_bb s).testBit i = true) : b.global_occupancy.testBit i = true := by
  rw [hinv.2.2.2.1]
  cases s <;> simp [Nat.testBit_or, h]

theorem bb_subset_global {b : Board} (hinv : BoardInv b) {s : Side} {p : Piece} {i : Nat}
    (h : (b.get_bb s p).testBit i = true) : b.global_occupancy.testBit i = true :=
  occ_subset_global hinv (bb_subset_occ hinv h)

theorem exists_piece_of_occ {b : Board} (hinv : BoardInv b) {s : Side} {i : Nat}
    (h : (b.get_occupancy_bb s).testBit i = true) :
    ∃ p, (b.get_bb s p).testBit i = true := by
  rw [hinv.2.2.1 s, testBit_sideUnion] at h
  simp only [Bool.or_eq_true] at h
  rcases h with ((((h | h) | h) | h) | h) | h
  exacts [⟨.Pawn, h⟩, ⟨.Knight, h⟩, ⟨.Bishop, h⟩, ⟨.Rook, h⟩, ⟨.Queen, h⟩, ⟨.King, h⟩]

theorem land_testBit_both {x y i : Nat} (h : x &&& y = 0) :
    ¬(x.testBit i = true ∧ y.testBit i = true) := by
  rintro ⟨hx, hy⟩
  have : (x &&& y).testBit i = true := by simp [Nat.testBit_and, hx, hy]
  rw [h] at this
  simp at this

theorem occ_sides_disjoint {b : Board} (hinv : BoardInv b) {i : Nat}
    (hw : (b.get_occupancy_bb .White).testBit i = true)
    (hb : (b.get_occupancy_bb .Black).testBit i = true) : False := by
  obtain ⟨p, hp⟩ := exists_piece_of_occ hinv hw
  obtain ⟨q, hq⟩ := exists_piece_of_occ hinv hb
  exact land_testBit_both (hinv.2.1 .White p .Black q (by simp)) ⟨hp, hq⟩

theorem occ_opposite_not {b : Board} (hinv : BoardInv b) {s : Side} {i : Nat}
    (h : (b.get_occupancy_bb s).testBit i = true) :
    (b.get_occupancy_bb s.opposite).testBit i = false := by
  cases hb : (b.get_occupancy_bb s.opposite).testBit i with
  | false => rfl
  | true =>
    exfalso
    cases s
    · exact occ_sides_disjoint hinv h hb
    · exact occ_sides_disjoint hinv hb h

theorem occ_lt {b : Board} (hinv : BoardInv b) (s : Side) :
    b.get_occupancy_bb s < 2 ^ 64 := by
  rw [hinv.2.2.1 s]
  have h := hinv.1
  simp only [sideUnion, Piece.all, List.foldl]
  refine Nat.or_lt_two_pow (Nat.or_lt_two_pow (Nat.or_lt_two_pow (Nat.or_lt_two_pow
    (Nat.or_lt_two_pow (Nat.or_lt_two_pow ?_ (h s .Pawn)) (h s .Knight)) (h s .Bishop))
    (h s .Rook)) (h s .Queen)) (h s .King)
  norm_num

theorem global_lt {b : Board} (hinv : BoardInv b) : b.global_occupancy < 2 ^ 64 := by
  rw [hinv.2.2.2.1]
  exact Nat.or_lt_two_pow (occ_lt hinv .White) (occ_lt hinv .Black)

theorem not_global_not_occ {b : Board} (hinv : BoardInv b) {s : Side} {i : Nat}
    (h : b.global_occupancy.testBit i = false) :
    (b.get_occupancy_bb s).testBit i = false := by
  cases ho : (b.get_occupancy_bb s).testBit i with
  | false => rfl
  | true => rw [occ_subset_global hinv ho] at h; exact absurd h (by simp)

theorem not_occ_not_bb {b : Board} (hinv : BoardInv b) {s : Side} {p : Piece} {i : Nat}
    (h : (b.get_occupancy_bb s).testBit i = false) :
    (b.get_bb s p).testBit i = false := by
  cases hb : (b.get_bb s p).testBit i with
  | false => rfl
  | true => rw [bb_subset_occ hinv hb] at h; exact absurd h (by simp)

theorem clear2_set2 {x f k : Nat} (hx : x < 2 ^ 64) (hf : f < 64) (hk : k < 64)
    (hfk : f ≠ k) (hfx : x.testBit f = true) (hkx : x.testBit k = true) :
    ((x &&& compl64 (2 ^ f) &&& compl64 (2 ^ k)) ||| 2 ^ f) ||| 2 ^ k = x := by
  apply Nat.eq_of_testBit_eq
  intro i
  by_cases hi : i < 64
  · by_cases hif : i = f
    · subst hif
      simp [Nat.testBit_or, Nat.testBit_two_pow_self, hfx]
    · by_cases hik : i = k
      · subst hik
        simp [Nat.testBit_or, Nat.testBit_two_pow_self, hkx]
      · have e1 : (2 ^ f).testBit i = false := Nat.testBit_two_pow_of_ne (by omega)
        have e2 : (2 ^ k).testBit i = false := Nat.testBit_two_pow_of_ne (by omega)
        simp [Nat.testBit_or, Nat.testBit_and, e1, e2, testBit_compl64_of_lt hi]
  · have h64 : 64 ≤ i := by omega
    have e1 : (2 ^ f : Nat) < 2 ^ 64 := Nat.pow_lt_pow_right (by norm_num) hf
    have e2 : (2 ^ k : Nat) < 2 ^ 64 := Nat.pow_lt_pow_right (by norm_num) hk
    simp [Nat.testBit_or, Nat.testBit_and, testBit_of_ge_64 hx h64,
      testBit_of_ge_64 e1 h64, testBit_of_ge_64 e2 h64]

theorem compl64_lt {m : Nat} (hm : m < 2 ^ 64) : compl64 m < 2 ^ 64 := by
  have : M64 < 2 ^ 64 := by norm_num [M64]
  exact Nat.xor_lt_two_pow this hm

theorem two_pow_lt_64 {k : Nat} (hk : k < 64) : (2 ^ k : Nat) < 2 ^ 64 :=
  Nat.pow_lt_pow_right (by norm_num) hk

end Orion

namespace Orion

theorem boardEq_of_fields {a c : Board} (h1 : ∀ s p, a.bitboards s p = c.bitboards s p)
    (h2 : ∀ s, a.side_occupancies s = c.side_occupancies s)
    (h3 : a.global_occupancy = c.global_occupancy) (h4 : a.game_state = c.game_state)
    (h5 : a.history.length = c.history.length) : boardEq a c = true := by
  simp [boardEq, List.all_eq_true, h1, h2, h3, h4, h5]

theorem testBit_and_false_left {x y : Nat} {i : Nat} (h : x.testBit i = false) :
    (x &&& y).testBit i = false := by
  simp [Nat.testBit_and, h]

theorem move_bb_restore {x : Nat} (hx : x < 2 ^ 64) {f t : Nat} (hf : f < 64) (ht : t < 64)
    (hfx : x.testBit f = true) (htx : x.testBit t = false) :
    ((((x &&& compl64 (2 ^ f)) ||| 2 ^ t) &&& compl64 (2 ^ t)) ||| 2 ^ f) = x := by
  have h1 : (x &&& compl64 (2 ^ f)).testBit t = false := testBit_and_false_left htx
  have h2 : x &&& compl64 (2 ^ f) < 2 ^ 64 :=
    Nat.and_lt_two_pow _ (compl64_lt (two_pow_lt_64 hf))
  rw [set_clear_bit h2 ht h1, clear_set_bit hx hf hfx]

theorem capture_global_restore {g : Nat} (hg : g < 2 ^ 64) {f t cs : Nat} (hf : f < 64)
    (ht : t < 64) (hcs : cs < 64) (hfg : g.testBit f = true) (hcsg : g.testBit cs = true)
    (htno : (g &&& compl64 (2 ^ f) &&& compl64 (2 ^ cs)).testBit t = false)
    (hfcs : f ≠ cs) :
    (((((g &&& compl64 (2 ^ f) &&& compl64 (2 ^ cs)) ||| 2 ^ t) &&& compl64 (2 ^ t)) |||
      2 ^ f) ||| 2 ^ cs) = g := by
  have h2 : g &&& compl64 (2 ^ f) &&& compl64 (2 ^ cs) < 2 ^ 64 :=
    Nat.and_lt_two_pow _ (compl64_lt (two_pow_lt_64 hcs))
  rw [set_clear_bit h2 ht htno, clear2_set2 hg hf hcs hfcs hfg hcsg]

theorem castle_occ_restore {o : Nat} (ho : o < 2 ^ 64) {kf kt rf rt : Nat} (hkf : kf < 64)
    (hkt : kt < 64) (hrf : rf < 64) (hrt : rt < 64) (hkfo : o.testBit kf = true)
    (hkto : o.testBit kt = false) (hrfo : o.testBit rf = true) (hrto : o.testBit rt = false)
    (hkfrf : kf ≠ rf) (hktrt : kt ≠ rt) :
    ((((((((o &&& compl64 (2 ^ kf)) ||| 2 ^ kt) &&& compl64 (2 ^ rf)) ||| 2 ^ rt) &&&
      compl64 (2 ^ kt)) &&& compl64 (2 ^ rt)) ||| 2 ^ kf) ||| 2 ^ rf) = o := by
  have d1 : kf ≠ kt := fun h => by rw [h, hkto] at hkfo; exact absurd hkfo (by simp)
  have d2 : kf ≠ rt := fun h => by rw [h, hrto] at hkfo; exact absurd hkfo (by simp)
  have d3 : rf ≠ kt := fun h => by rw [h, hkto] at hrfo; exact absurd hrfo (by simp)
  have d4 : rf ≠ rt := fun h => by rw [h, hrto] at hrfo; exact absurd hrfo (by simp)
  apply Nat.eq_of_testBit_eq
  intro i
  by_cases hi : i < 64
  · by_cases h1 : i = kf
    · subst h1
      simp [Nat.testBit_or, Nat.testBit_and, Nat.testBit_two_pow_self,
        Nat.testBit_two_pow_of_ne (Ne.symm hkfrf), hkfo]
    · by_cases h2 : i = rf
      · subst h2
        simp [Nat.testBit_or, Nat.testBit_two_pow_self, hrfo]
      · by_cases h3 : i = kt
        · subst h3
          simp [Nat.testBit_or, Nat.testBit_and, Nat.testBit_two_pow_self,
            Nat.testBit_two_pow_of_ne d1, Nat.testBit_two_pow_of_ne d3,
            Nat.testBit_two_pow_of_ne (Ne.symm hktrt), testBit_compl64_of_lt hi, hkto]
        · by_cases h4 : i = rt
          · subst h4
            simp [Nat.testBit_or, Nat.testBit_and, Nat.testBit_two_pow_self,
              Nat.testBit_two_pow_of_ne d2, Nat.testBit_two_pow_of_ne d4,
              Nat.testBit_two_pow_of_ne hktrt, testBit_compl64_of_lt hi, hrto]
          · simp [Nat.testBit_or, Nat.testBit_and, testBit_compl64_of_lt hi,
              Nat.testBit_two_pow_of_ne (show kf ≠ i by omega),
              Nat.testBit_two_pow_of_ne (show kt ≠ i by omega),
              Nat.testBit_two_pow_of_ne (show rf ≠ i by omega),
              Nat.testBit_two_pow_of_ne (show rt ≠ i by omega)]
  · have h64 : 64 ≤ i := by omega
    simp [Nat.testBit_or, Nat.testBit_and, testBit_of_ge_64 ho h64,
      testBit_of_ge_64 (two_pow_lt_64 hkf) h64, testBit_of_ge_64 (two_pow_lt_64 hkt) h64,
      testBit_of_ge_64 (two_pow_lt_64 hrf) h64, testBit_of_ge_64 (two_pow_lt_64 hrt) h64]

end Orion

namespace Orion

theorem move_bb_restore_sq {x : Nat} (hx : x < 2 ^ 64) (f t : Square)
    (hfx : x.testBit f.val = true) (htx : x.testBit t.val = false) :
    ((((x &&& compl64 (2 ^ f.val)) ||| 2 ^ t.val) &&& compl64 (2 ^ t.val)) ||| 2 ^ f.val) = x :=
  move_bb_restore hx f.isLt t.isLt hfx htx

theorem castle_occ_restore_sq {o : Nat} (ho : o < 2 ^ 64) (kf kt rf rt : Square)
    (hkfo : o.testBit kf.val = true) (hkto : o.testBit kt.val = false)
    (hrfo : o.testBit rf.val = true) (hrto : o.testBit rt.val = false)
    (hkfrf : kf.val ≠ rf.val) (hktrt : kt.val ≠ rt.val) :
    ((((((((o &&& compl64 (2 ^ kf.val)) ||| 2 ^ kt.val) &&& compl64 (2 ^ rf.val)) |||
      2 ^ rt.val) &&& compl64 (2 ^ kt.val)) &&& compl64 (2 ^ rt.val)) ||| 2 ^ kf.val) |||
      2 ^ rf.val) = o :=
  castle_occ_restore ho kf.isLt kt.isLt rf.isLt rt.isLt hkfo hkto hrfo hrto hkfrf hktrt

theorem restore_of_ok_castle {b : Board} (hinv : BoardInv b) {cf2 ct2 : Square}
    {cside : CastlingSide} (hok : MoveOk b (.castle cf2 ct2 cside)) :
    ∃ b2, (b.make_move (.castle cf2 ct2 cside)).unmake_move = some b2 ∧ boardEq b2 b = true := by
  have hg64 := global_lt hinv
  have hocc64 := occ_lt hinv
  have hbb64 := hinv.1
  obtain ⟨hkf, hrf, hktno, hrtno⟩ := hok
  have hKno : (b.get_bb b.game_state.side_to_move .King).testBit
      ((CastlingSide.get_castling_positions b.game_state.side_to_move .King cside).2.val) =
      false := not_occ_not_bb hinv (not_global_not_occ hinv hktno)
  have hRno : (b.get_bb b.game_state.side_to_move .Rook).testBit
      ((CastlingSide.get_castling_positions b.game_state.side_to_move .Rook cside).2.val) =
      false := not_occ_not_bb hinv (not_global_not_occ hinv hrtno)
  have hoccK := bb_subset_occ hinv hkf
  have hoccR := bb_subset_occ hinv hrf
  have hoccKno : (b.get_occupancy_bb b.game_state.side_to_move).testBit
      ((CastlingSide.get_castling_positions b.game_state.side_to_move .King cside).2.val) =
      false := not_global_not_occ hinv hktno
  have hoccRno : (b.get_occupancy_bb b.game_state.side_to_move).testBit
      ((CastlingSide.get_castling_positions b.game_state.side_to_move .Rook cside).2.val) =
      false := not_global_not_occ hinv hrtno
  have hglobK := occ_subset_global hinv hoccK
  have hglobR := occ_subset_global hinv hoccR
  have hkfrf :
      (CastlingSide.get_castling_positions b.game_state.side_to_move .King cside).1.val ≠
      (CastlingSide.get_castling_positions b.game_state.side_to_move .Rook cside).1.val := by
    rcases cside <;> cases b.game_state.side_to_move <;> decide
  have hktrt :
      (CastlingSide.get_castling_positions b.game_state.side_to_move .King cside).2.val ≠
      (CastlingSide.get_castling_positions b.game_state.side_to_move .Rook cside).2.val := by
    rcases cside <;> cases b.game_state.side_to_move <;> decide
  refine ⟨_, rfl, boardEq_of_fields ?_ ?_ ?_ rfl rfl⟩
  · intro s p
    simp only [Board.make_move, Board.unmake_move, makeCastlePieces, Board.move_piece,
      Board.add_piece, Board.remove_piece, Board.get_bb, Board.get_occupancy_bb, updateBB,
      updateOcc, sqBit_eq]
    by_cases hk1 : s = b.game_state.side_to_move ∧ p = Piece.King
    · obtain ⟨h1, h2⟩ := hk1
      subst h1
      subst h2
      simp only [and_self, if_true, if_pos rfl, true_and, and_true, and_false, if_false,
        reduceCtorEq]
      exact move_bb_restore_sq (hbb64 _ _) _ _ hkf hKno
    · by_cases hk2 : s = b.game_state.side_to_move ∧ p = Piece.Rook
      · obtain ⟨h1, h2⟩ := hk2
        subst h1
        subst h2
        simp only [and_self, if_true, if_pos rfl, true_and, and_true, and_false, if_false,
          reduceCtorEq]
        exact move_bb_restore_sq (hbb64 _ _) _ _ hrf hRno
      · simp [hk1, hk2]
  · intro s
    simp only [Board.make_move, Board.unmake_move, makeCastlePieces, Board.move_piece,
      Board.add_piece, Board.remove_piece, Board.get_bb, Board.get_occupancy_bb, updateBB,
      updateOcc, sqBit_eq]
    by_cases hs1 : s = b.game_state.side_to_move
    · subst hs1
      simp only [if_pos rfl]
      exact castle_occ_restore_sq (hocc64 _) _ _ _ _ hoccK hoccKno hoccR hoccRno hkfrf hktrt
    · simp [hs1]
  · simp only [Board.make_move, Board.unmake_move, makeCastlePieces, Board.move_piece,
      Board.add_piece, Board.remove_piece, Board.get_bb, Board.get_occupancy_bb, updateBB,
      updateOcc, sqBit_eq]
    exact castle_occ_restore_sq hg64 _ _ _ _ hglobK hktno hglobR hrtno hkfrf hktrt

end Orion

namespace Orion

theorem opposite_opposite (s : Side) : s.opposite.opposite = s := by
  cases s <;> rfl

theorem occ_other_not {b : Board} (hinv : BoardInv b) {s : Side} {i : Nat}
    (h : (b.get_occupancy_bb s.opposite).testBit i = true) :
    (b.get_occupancy_bb s).testBit i = false := by
  have := occ_opposite_not hinv h
  rwa [opposite_opposite] at this

theorem testBit_and_compl_self {x k : Nat} (hk : k < 64) :
    (x &&& compl64 (2 ^ k)).testBit k = false := by
  simp [Nat.testBit_and, testBit_compl64_of_lt hk, Nat.testBit_two_pow_self]

theorem restore_of_ok {b : Board} (hinv : BoardInv b) {m : Move} (hok : MoveOk b m) :
    ∃ b2, (b.make_move m).unmake_move = some b2 ∧ boardEq b2 b = true := by
  have hg64 := global_lt hinv
  have hocc64 := occ_lt hinv
  have hbb64 := hinv.1
  rcases m with ⟨f, t, pc, cap, promo, flags⟩ | ⟨cf2, ct2, cside⟩
  case normal =>
    obtain ⟨hfrom, hcap, hpromo⟩ := hok
    have hoccf : (b.get_occupancy_bb b.game_state.side_to_move).testBit f.val = true :=
      bb_subset_occ hinv hfrom
    rcases cap with _ | cp
    · -- quiet move
      have hglob : b.global_occupancy.testBit t.val = false := hcap
      have hoccst : (b.get_occupancy_bb b.game_state.side_to_move).testBit t.val = false :=
        not_global_not_occ hinv hglob
      refine ⟨_, rfl, boardEq_of_fields ?_ ?_ ?_ rfl rfl⟩
      · intro s p
        simp only [Board.make_move, Board.unmake_move, makeNormalPieces, Board.add_piece,
          Board.remove_piece, Board.get_bb, Board.get_occupancy_bb, updateBB, updateOcc,
          sqBit_eq]
        rcases promo with _ | pp
        · simp only [Option.getD_none]
          by_cases hk : s = b.game_state.side_to_move ∧ p = pc
          · obtain ⟨hs, hp⟩ := hk
            subst hs
            subst hp
            simp only [and_self, if_true, if_pos rfl, true_and, and_true]
            exact move_bb_restore (hbb64 _ _) f.isLt t.isLt hfrom
              (not_occ_not_bb hinv hoccst)
          · simp [hk]
        · have hpp : pc ≠ pp := fun h => (hpromo pp rfl) h.symm
          simp only [Option.getD_some]
          by_cases hk1 : s = b.game_state.side_to_move ∧ p = pc
          · obtain ⟨hs, hp⟩ := hk1
            subst hs
            subst hp
            simp only [and_self, if_true, if_pos rfl, true_and, and_true, hpp, if_false,
              and_false]
            exact clear_set_bit (hbb64 _ _) f.isLt hfrom
          · by_cases hk2 : s = b.game_state.side_to_move ∧ p = pp
            · obtain ⟨hs, hp⟩ := hk2
              subst hs
              subst hp
              have hne1 : ¬(p = pc) := fun h => hpp h.symm
              have hne2 : ¬(pc = p) := hpp
              simp only [and_self, if_true, if_pos rfl, true_and, and_true, hne1, hne2,
                if_false, and_false]
              exact set_clear_bit (hbb64 _ _) t.isLt (not_occ_not_bb hinv hoccst)
            · simp [hk1, hk2]
      · intro s
        simp only [Board.make_move, Board.unmake_move, makeNormalPieces, Board.add_piece,
          Board.remove_piece, Board.get_bb, Board.get_occupancy_bb, updateBB, updateOcc,
          sqBit_eq]
        by_cases hs : s = b.game_state.side_to_move
        · subst hs
          simp only [if_pos rfl]
          exact move_bb_restore (hocc64 _) f.isLt t.isLt hoccf hoccst
        · simp [hs]
      · simp only [Board.make_move, Board.unmake_move, makeNormalPieces, Board.add_piece,
          Board.remove_piece, Board.get_bb, Board.get_occupancy_bb, updateBB, updateOcc,
          sqBit_eq]
        exact move_bb_restore hg64 f.isLt t.isLt (bb_subset_global hinv hfrom) hglob
    · -- capture
      obtain ⟨fep, fdp⟩ := flags
      have hstm_ne : b.game_state.side_to_move.opposite ≠ b.game_state.side_to_move :=
        side_opposite_ne _
      cases fep
      case false =>
        have hcapt : (b.get_bb b.game_state.side_to_move.opposite cp).testBit t.val = true :=
          hcap
        have hoccoppt : (b.get_occupancy_bb b.game_state.side_to_move.opposite).testBit
            t.val = true := bb_subset_occ hinv hcapt
        have hglobt : b.global_occupancy.testBit t.val = true := occ_subset_global hinv hoccoppt
        have hoccstmt : (b.get_occupancy_bb b.game_state.side_to_move).testBit t.val = false :=
          occ_other_not hinv hoccoppt
        have hft : f.val ≠ t.val := by
          intro h
          rw [h, hoccstmt] at hoccf
          exact absurd hoccf (by simp)
        refine ⟨_, rfl, boardEq_of_fields ?_ ?_ ?_ rfl rfl⟩
        · intro s p
          simp only [Board.make_move, Board.unmake_move, makeNormalPieces, Board.add_piece,
            Board.remove_piece, Board.get_bb, Board.get_occupancy_bb, updateBB, updateOcc,
            sqBit_eq]
          simp only [MoveFlags.en_passant, if_neg (by simp : ¬False), Bool.false_eq_true,
            if_false]
          by_cases hk0 : s = b.game_state.side_to_move.opposite ∧ p = cp
          · obtain ⟨hs, hp⟩ := hk0
            subst hs
            subst hp
            have hccond : ¬(b.game_state.side_to_move.opposite = b.game_state.side_to_move) :=
              hstm_ne
            simp only [and_self, if_true, if_pos rfl, hccond, false_and, if_false, and_true]
            exact clear_set_bit (hbb64 _ _) t.isLt hcapt
          · rcases promo with _ | pp
            · simp only [Option.getD_none]
              by_cases hk : s = b.game_state.side_to_move ∧ p = pc
              · obtain ⟨hs, hp⟩ := hk
                subst hs
                subst hp
                have hccond : ¬(b.game_state.side_to_move = b.game_state.side_to_move.opposite) :=
                  fun h => hstm_ne h.symm
                simp only [and_self, if_true, if_pos rfl, true_and, and_true, hccond,
                  false_and, if_false]
                exact move_bb_restore (hbb64 _ _) f.isLt t.isLt hfrom
                  (not_occ_not_bb hinv hoccstmt)
              · simp [hk, hk0]
            · have hpp : pc ≠ pp := fun h => (hpromo pp rfl) h.symm
              simp only [Option.getD_some]
              by_cases hk1 : s = b.game_state.side_to_move ∧ p = pc
              · obtain ⟨hs, hp⟩ := hk1
                subst hs
                subst hp
                have hccond : ¬(b.game_state.side_to_move = b.game_state.side_to_move.opposite) :=
                  fun h => hstm_ne h.symm
                simp only [and_self, if_true, if_pos rfl, true_and, and_true, hpp, hccond,
                  false_and, if_false, and_false]
                exact clear_set_bit (hbb64 _ _) f.isLt hfrom
              · by_cases hk2 : s = b.game_state.side_to_move ∧ p = pp
                · obtain ⟨hs, hp⟩ := hk2
                  subst hs
                  subst hp
                  have hccond : ¬(b.game_state.side_to_move = b.game_state.side_to_move.opposite) :=
                    fun h => hstm_ne h.symm
                  have hne1 : ¬(p = pc) := fun h => hpp h.symm
                  have hne2 : ¬(pc = p) := hpp
                  simp only [and_self, if_true, if_pos rfl, true_and, and_true, hne1, hne2,
                    hccond, false_and, if_false, and_false]
                  exact set_clear_bit (hbb64 _ _) t.isLt (not_occ_not_bb hinv hoccstmt)
                · simp [hk0, hk1, hk2]
        · intro s
          simp only [Board.make_move, Board.unmake_move, makeNormalPieces, Board.add_piece,
            Board.remove_piece, Board.get_bb, Board.get_occupancy_bb, updateBB, updateOcc,
            sqBit_eq]
          simp only [MoveFlags.en_passant, Bool.false_eq_true, if_false]
          by_cases hs0 : s = b.game_state.side_to_move.opposite
          · subst hs0
            simp only [if_pos rfl, hstm_ne, if_false]
            exact clear_set_bit (hocc64 _) t.isLt hoccoppt
          · by_cases hs : s = b.game_state.side_to_move
            · subst hs
              have hccond : ¬(b.game_state.side_to_move = b.game_state.side_to_move.opposite) :=
                fun h => hstm_ne h.symm
              simp only [if_pos rfl, hccond, if_false]
              exact move_bb_restore (hocc64 _) f.isLt t.isLt hoccf hoccstmt
            · simp [hs0, hs]
        · simp only [Board.make_move, Board.unmake_move, makeNormalPieces, Board.add_piece,
            Board.remove_piece, Board.get_bb, Board.get_occupancy_bb, updateBB, updateOcc,
            sqBit_eq]
          simp only [MoveFlags.en_passant, Bool.false_eq_true, if_false]
          exact capture_global_restore hg64 f.isLt t.isLt t.isLt
            (bb_subset_global hinv hfrom) hglobt
            (testBit_and_compl_self t.isLt) hft
      case true =>
        obtain ⟨hcpPawn, hglobt, hcsbit⟩ := hcap
        subst hcpPawn
        have hoccstmt : (b.get_occupancy_bb b.game_state.side_to_move).testBit t.val = false :=
          not_global_not_occ hinv hglobt
        have hoccoppcs : (b.get_occupancy_bb b.game_state.side_to_move.opposite).testBit
            ((t.backward b.game_state.side_to_move).val) = true := bb_subset_occ hinv hcsbit
        have hglobcs : b.global_occupancy.testBit
            ((t.backward b.game_state.side_to_move).val) = true :=
          occ_subset_global hinv hoccoppcs
        have hfcs : f.val ≠ (t.backward b.game_state.side_to_move).val := by
          intro h
          have hcsno := occ_other_not hinv hoccoppcs
          rw [h] at hoccf
          rw [hoccf] at hcsno
          exact absurd hcsno (by simp)
        refine ⟨_, rfl, boardEq_of_fields ?_ ?_ ?_ rfl rfl⟩
        · intro s p
          simp only [Board.make_move, Board.unmake_move, makeNormalPieces, Board.add_piece,
            Board.remove_piece, Board.get_bb, Board.get_occupancy_bb, updateBB, updateOcc,
            sqBit_eq]
          simp only [MoveFlags.en_passant, if_true]
          by_cases hk0 : s = b.game_state.side_to_move.opposite ∧ p = Piece.Pawn
          · obtain ⟨hs, hp⟩ := hk0
            subst hs
            subst hp
            simp only [and_self, if_true, if_pos rfl, hstm_ne, false_and, if_false, and_true]
            exact clear_set_bit (hbb64 _ _) (t.backward b.game_state.side_to_move).isLt hcsbit
          · rcases promo with _ | pp
            · simp only [Option.getD_none]
              by_cases hk : s = b.game_state.side_to_move ∧ p = pc
              · obtain ⟨hs, hp⟩ := hk
                subst hs
                subst hp
                have hccond : ¬(b.game_state.side_to_move = b.game_state.side_to_move.opposite) :=
                  fun h => hstm_ne h.symm
                simp only [and_self, if_true, if_pos rfl, true_and, and_true, hccond,
                  false_and, if_false]
                exact move_bb_restore (hbb64 _ _) f.isLt t.isLt hfrom
                  (not_occ_not_bb hinv hoccstmt)
              · simp [hk, hk0]
            · have hpp : pc ≠ pp := fun h => (hpromo pp rfl) h.symm
              simp only [Option.getD_some]
              by_cases hk1 : s = b.game_state.side_to_move ∧ p = pc
              · obtain ⟨hs, hp⟩ := hk1
                subst hs
                subst hp
                have hccond : ¬(b.game_state.side_to_move = b.game_state.side_to_move.opposite) :=
                  fun h => hstm_ne h.symm
                simp only [and_self, if_true, if_pos rfl, true_and, and_true, hpp, hccond,
                  false_and, if_false, and_false]
                exact clear_set_bit (hbb64 _ _) f.isLt hfrom
              · by_cases hk2 : s = b.game_state.side_to_move ∧ p = pp
                · obtain ⟨hs, hp⟩ := hk2
                  subst hs
                  subst hp
                  have hccond : ¬(b.game_state.side_to_move = b.game_state.side_to_move.opposite) :=
                    fun h => hstm_ne h.symm
                  have hne1 : ¬(p = pc) := fun h => hpp h.symm
                  have hne2 : ¬(pc = p) := hpp
                  simp only [and_self, if_true, if_pos rfl, true_and, and_true, hne1, hne2,
                    hccond, false_and, if_false, and_false]
                  exact set_clear_bit (hbb64 _ _) t.isLt (not_occ_not_bb hinv hoccstmt)
                · simp [hk0, hk1, hk2]
        · intro s
          simp only [Board.make_move, Board.unmake_move, makeNormalPieces, Board.add_piece,
            Board.remove_piece, Board.get_bb, Board.get_occupancy_bb, updateBB, updateOcc,
            sqBit_eq]
          simp only [MoveFlags.en_passant, if_true]
          by_cases hs0 : s = b.game_state.side_to_move.opposite
          · subst hs0
            simp only [if_pos rfl, hstm_ne, if_false]
            exact clear_set_bit (hocc64 _) (t.backward b.game_state.side_to_move).isLt hoccoppcs
          · by_cases hs : s = b.game_state.side_to_move
            · subst hs
              have hccond : ¬(b.game_state.side_to_move = b.game_state.side_to_move.opposite) :=
                fun h => hstm_ne h.symm
              simp only [if_pos rfl, hccond, if_false]
              exact move_bb_restore (hocc64 _) f.isLt t.isLt hoccf hoccstmt
            · simp [hs0, hs]
        · simp only [Board.make_move, Board.unmake_move, makeNormalPieces, Board.add_piece,
            Board.remove_piece, Board.get_bb, Board.get_occupancy_bb, updateBB, updateOcc,
            sqBit_eq]
          simp only [MoveFlags.en_passant, if_true]
          refine capture_global_restore hg64 f.isLt t.isLt (t.backward b.game_state.side_to_move).isLt
            (bb_subset_global hinv hfrom) hglobcs ?_ hfcs
          exact testBit_and_false_left (testBit_and_false_left hglobt)
  case castle => exact restore_of_ok_castle hinv hok

end Orion

namespace Orion

theorem testBit_empty_bb {b : Board} {i : Nat} (hi : i < 64)
    (h : (b.get_empty_bb).testBit i = true) : b.global_occupancy.testBit i = false := by
  rw [Board.get_empty_bb, testBit_compl64_of_lt hi] at h
  simpa using h

theorem occupancy_piece_testBit {b : Board} {s : Side} {sq : Square} {p : Piece}
    (h : b.get_occupancy_piece s sq = some p) : (b.get_bb s p).testBit sq.val = true := by
  have := List.find?_some h
  rw [decide_eq_true_eq] at this
  have hne : b.get_bb s p &&& 2 ^ sq.val ≠ 0 := by simpa [sqBit_eq] using this
  rcases Nat.ne_zero_implies_bit_true hne with ⟨i, hi⟩
  rw [Nat.testBit_and] at hi
  rw [Bool.and_eq_true] at hi
  rcases hi with ⟨h1, h2⟩
  have : sq.val = i := by
    by_contra hne2
    rw [Nat.testBit_two_pow_of_ne hne2] at h2
    exact absurd h2 (by simp)
  rwa [this]

theorem occupancy_piece_some {b : Board} (hinv : BoardInv b) {s : Side} {sq : Square}
    (h : (b.get_occupancy_bb s).testBit sq.val = true) :
    ∃ p, b.get_occupancy_piece s sq = some p := by
  obtain ⟨p, hp⟩ := exists_piece_of_occ hinv h
  rw [Board.get_occupancy_piece]
  rcases hfind : Piece.all.find? (fun q => decide (b.get_bb s q &&& sqBit sq ≠ 0)) with _ | q
  · exfalso
    have := List.find?_eq_none.mp hfind p (by cases p <;> simp [Piece.all])
    rw [decide_eq_true_eq] at this
    push_neg at this
    have hbit : (b.get_bb s p &&& sqBit sq).testBit sq.val = true := by
      rw [sqBit_eq, Nat.testBit_and, hp, Nat.testBit_two_pow_self]
      rfl
    rw [this] at hbit
    simp at hbit
  · exact ⟨q, rfl⟩

theorem promotion_piece_ne_pawn {pp : Piece} (h : pp ∈ Piece.PROMOTION_PIECES) :
    pp ≠ Piece.Pawn := by
  simp only [Piece.PROMOTION_PIECES, List.mem_cons, List.mem_singleton,
    List.not_mem_nil, or_false] at h
  rcases h with rfl | rfl | rfl | rfl <;> decide

theorem testBit_lt_64 {x i : Nat} (hx : x < 2 ^ 64) (h : x.testBit i = true) : i < 64 := by
  by_contra hge
  rw [testBit_of_ge_64 hx (by omega)] at h
  exact absurd h (by simp)

theorem get_castlings_flag {cs : CastlingState} {side : Side} {c : CastlingSide}
    (h : c ∈ cs.get_castlings side) :
    (match side, c with
     | .White, .KingSide => cs.white_kingside
     | .White, .QueenSide => cs.white_queenside
     | .Black, .KingSide => cs.black_kingside
     | .Black, .QueenSide => cs.black_queenside) = true := by
  rcases c <;> cases side <;>
    (simp only [CastlingState.get_castlings, List.mem_append] at h
     split_ifs at h <;> simp_all)

end Orion

namespace Orion

theorem leaper_move_ok {b : Board} (hinv : BoardInv b) {piece : Piece}
    {fn : Square → Nat} {m : Move}
    (hm : m ∈ generate_leaper_pseudo_legal_moves b b.game_state.side_to_move piece fn) :
    MoveOk b m := by
  rw [generate_leaper_pseudo_legal_moves] at hm
  rcases List.mem_flatMap.mp hm with ⟨fromSq, hfrom, hm2⟩
  have hf : (b.get_bb b.game_state.side_to_move piece).testBit fromSq.val = true :=
    mem_squaresOf hfrom
  rcases List.mem_append.mp hm2 with hq | hc
  · rcases List.mem_map.mp hq with ⟨toSq, hto, rfl⟩
    have htb := mem_squaresOf hto
    rw [Nat.testBit_and, Bool.and_eq_true] at htb
    exact ⟨hf, testBit_empty_bb toSq.isLt htb.2, by simp⟩
  · rcases List.mem_map.mp hc with ⟨toSq, hto, rfl⟩
    have htb := mem_squaresOf hto
    rw [Nat.testBit_and, Bool.and_eq_true] at htb
    obtain ⟨cp, hcp⟩ := occupancy_piece_some hinv htb.2
    rw [hcp]
    exact ⟨hf, occupancy_piece_testBit hcp, by simp⟩

theorem sliding_eq_leaper (b : Board) (side : Side) (piece : Piece)
    (fn : Square → Nat → Nat) :
    generate_sliding_pseudo_legal_moves b side piece fn =
      generate_leaper_pseudo_legal_moves b side piece (fun sq => fn sq b.global_occupancy) :=
  rfl

theorem castling_move_ok {b : Board} (hcc : castlingCoherent b) {m : Move}
    (hm : m ∈ generate_castling_moves b b.game_state.side_to_move) : MoveOk b m := by
  rw [generate_castling_moves] at hm
  rcases List.mem_flatMap.mp hm with ⟨castling, hcast, hm2⟩
  clear hm
  by_cases hcond : b.global_occupancy &&&
      (match b.game_state.side_to_move, castling with
        | Side.White, CastlingSide.KingSide =>
          (WHITE_KING_SIDE_EMPTY_MASK, WHITE_KING_SIDE_NOT_ATTACKED_MASK)
        | Side.White, CastlingSide.QueenSide =>
          (WHITE_QUEEN_SIDE_EMPTY_MASK, WHITE_QUEEN_SIDE_NOT_ATTACKED_MASK)
        | Side.Black, CastlingSide.KingSide =>
          (BLACK_KING_SIDE_EMPTY_MASK, BLACK_KING_SIDE_NOT_ATTACKED_MASK)
        | Side.Black, CastlingSide.QueenSide =>
          (BLACK_QUEEN_SIDE_EMPTY_MASK, BLACK_QUEEN_SIDE_NOT_ATTACKED_MASK)).1 = 0 ∧
      ((squaresOf (match b.game_state.side_to_move, castling with
        | Side.White, CastlingSide.KingSide =>
          (WHITE_KING_SIDE_EMPTY_MASK, WHITE_KING_SIDE_NOT_ATTACKED_MASK)
        | Side.White, CastlingSide.QueenSide =>
          (WHITE_QUEEN_SIDE_EMPTY_MASK, WHITE_QUEEN_SIDE_NOT_ATTACKED_MASK)
        | Side.Black, CastlingSide.KingSide =>
          (BLACK_KING_SIDE_EMPTY_MASK, BLACK_KING_SIDE_NOT_ATTACKED_MASK)
        | Side.Black, CastlingSide.QueenSide =>
          (BLACK_QUEEN_SIDE_EMPTY_MASK, BLACK_QUEEN_SIDE_NOT_ATTACKED_MASK)).2).all
        (fun square => !(b.is_square_attacked square b.game_state.side_to_move.opposite))) = true
  · rw [if_pos hcond] at hm2
    rcases List.mem_singleton.mp hm2 with rfl
    have hempty := hcond.1
    clear hcond
    rcases castling
    · cases hside : b.game_state.side_to_move
      · rw [hside] at hcast hempty
        refine ⟨?_, ?_, ?_, ?_⟩ <;> rw [hside]
        · exact (hcc.1 (get_castlings_flag hcast)).1
        · exact (hcc.1 (get_castlings_flag hcast)).2
        · exact land_eq_zero_testBit hempty (by decide)
        · exact land_eq_zero_testBit hempty (by decide)
      · rw [hside] at hcast hempty
        refine ⟨?_, ?_, ?_, ?_⟩ <;> rw [hside]
        · exact (hcc.2.2.1 (get_castlings_flag hcast)).1
        · exact (hcc.2.2.1 (get_castlings_flag hcast)).2
        · exact land_eq_zero_testBit hempty (by decide)
        · exact land_eq_zero_testBit hempty (by decide)
    · cases hside : b.game_state.side_to_move
      · rw [hside] at hcast hempty
        refine ⟨?_, ?_, ?_, ?_⟩ <;> rw [hside]
        · exact (hcc.2.1 (get_castlings_flag hcast)).1
        · exact (hcc.2.1 (get_castlings_flag hcast)).2
        · exact land_eq_zero_testBit hempty (by decide)
        · exact land_eq_zero_testBit hempty (by decide)
      · rw [hside] at hcast hempty
        refine ⟨?_, ?_, ?_, ?_⟩ <;> rw [hside]
        · exact (hcc.2.2.2 (get_castlings_flag hcast)).1
        · exact (hcc.2.2.2 (get_castlings_flag hcast)).2
        · exact land_eq_zero_testBit hempty (by decide)
        · exact land_eq_zero_testBit hempty (by decide)
  · rw [if_neg hcond] at hm2
    exact absurd hm2 (List.not_mem_nil _)

end Orion

namespace Orion

theorem land_sqBit_ne_zero {x : Nat} {sq : Square} (h : x &&& sqBit sq ≠ 0) :
    x &&& sqBit sq = sqBit sq := by
  rw [sqBit_eq] at h ⊢
  rcases Nat.ne_zero_implies_bit_true h with ⟨i, hi⟩
  rw [Nat.testBit_and, Bool.and_eq_true] at hi
  obtain ⟨hx1, hx2⟩ := hi
  have hik : sq.val = i := by
    by_contra hne
    rw [Nat.testBit_two_pow_of_ne hne] at hx2
    exact absurd hx2 (by simp)
  rw [← hik] at hx1
  apply Nat.eq_of_testBit_eq
  intro j
  rw [Nat.testBit_and]
  by_cases hj : j = sq.val
  · subst hj
    simp [hx1]
  · rw [Nat.testBit_two_pow_of_ne (fun hh => hj hh.symm)]
    simp

theorem pawn_move_ok {b : Board} (hinv : BoardInv b) {m : Move}
    (hm : m ∈ generate_pseudo_legal_pawn_moves b b.game_state.side_to_move) :
    MoveOk b m := by
  simp only [generate_pseudo_legal_pawn_moves, List.mem_append] at hm
  rcases hm with (((hq | hpq) | hd) | hc)
  · rcases List.mem_map.mp hq with ⟨bit, hbit, rfl⟩
    rcases mem_bitIndices.mp hbit with ⟨hlt, hb⟩
    rw [Nat.testBit_and, Nat.testBit_and, Bool.and_eq_true, Bool.and_eq_true] at hb
    obtain ⟨⟨hpush, hemp⟩, -⟩ := hb
    cases hside : b.game_state.side_to_move
    · rw [hside] at hpush
      simp only [push_pawn, testBit_shl64, Bool.and_eq_true, decide_eq_true_eq] at hpush
      obtain ⟨⟨-, h8⟩, hpb⟩ := hpush
      refine ⟨?_, ?_, by simp⟩
      · rw [hside]
        simp only [pawnPushFrom]
        rw [mkSquare_val (by omega)]
        exact hpb
      · rw [mkSquare_val hlt]
        exact testBit_empty_bb hlt hemp
    · rw [hside] at hpush
      simp only [push_pawn, Nat.testBit_shiftRight] at hpush
      have h64 : 8 + bit < 64 := testBit_lt_64 (hinv.1 _ _) hpush
      refine ⟨?_, ?_, by simp⟩
      · rw [hside]
        simp only [pawnPushFrom]
        rw [mkSquare_val (by omega)]
        have hcomm : bit + 8 = 8 + bit := Nat.add_comm _ _
        rw [hcomm]
        exact hpush
      · rw [mkSquare_val hlt]
        exact testBit_empty_bb hlt hemp
  · rcases List.mem_flatMap.mp hpq with ⟨bit, hbit, hm2⟩
    rcases List.mem_map.mp hm2 with ⟨pp, hpp, rfl⟩
    rcases mem_bitIndices.mp hbit with ⟨hlt, hb⟩
    rw [Nat.testBit_and, Nat.testBit_and, Bool.and_eq_true, Bool.and_eq_true] at hb
    obtain ⟨⟨hpush, hemp⟩, -⟩ := hb
    have hppn : pp ≠ Piece.Pawn := promotion_piece_ne_pawn hpp
    cases hside : b.game_state.side_to_move
    · rw [hside] at hpush
      simp only [push_pawn, testBit_shl64, Bool.and_eq_true, decide_eq_true_eq] at hpush
      obtain ⟨⟨-, h8⟩, hpb⟩ := hpush
      refine ⟨?_, ?_, fun q hq => Option.some.inj hq ▸ hppn⟩
      · rw [hside]
        simp only [pawnPushFrom]
        rw [mkSquare_val (by omega)]
        exact hpb
      · rw [mkSquare_val hlt]
        exact testBit_empty_bb hlt hemp
    · rw [hside] at hpush
      simp only [push_pawn, Nat.testBit_shiftRight] at hpush
      have h64 : 8 + bit < 64 := testBit_lt_64 (hinv.1 _ _) hpush
      refine ⟨?_, ?_, fun q hq => Option.some.inj hq ▸ hppn⟩
      · rw [hside]
        simp only [pawnPushFrom]
        rw [mkSquare_val (by omega)]
        have hcomm : bit + 8 = 8 + bit := Nat.add_comm _ _
        rw [hcomm]
        exact hpush
      · rw [mkSquare_val hlt]
        exact testBit_empty_bb hlt hemp
  · rcases List.mem_map.mp hd with ⟨bit, hbit, rfl⟩
    rcases mem_bitIndices.mp hbit with ⟨hlt, hb⟩
    rw [Nat.testBit_and, Bool.and_eq_true] at hb
    obtain ⟨hpush2, hemp⟩ := hb
    cases hside : b.game_state.side_to_move
    · rw [hside] at hpush2
      simp only [push_pawn, testBit_shl64, Bool.and_eq_true, decide_eq_true_eq] at hpush2
      obtain ⟨⟨-, h8⟩, hstep⟩ := hpush2
      rw [Nat.testBit_and, Nat.testBit_and, Bool.and_eq_true, Bool.and_eq_true] at hstep
      obtain ⟨⟨hA, -⟩, -⟩ := hstep
      simp only [testBit_shl64, Bool.and_eq_true, decide_eq_true_eq] at hA
      obtain ⟨⟨-, h8b⟩, hp⟩ := hA
      have hsub : bit - 8 - 8 = bit - 16 := by omega
      rw [hsub] at hp
      refine ⟨?_, ?_, by simp⟩
      · rw [hside]
        simp only [pawnDoublePushFrom]
        rw [mkSquare_val (by omega)]
        exact hp
      · rw [mkSquare_val hlt]
        exact testBit_empty_bb hlt hemp
    · rw [hside] at hpush2
      simp only [push_pawn, Nat.testBit_shiftRight] at hpush2
      rw [Nat.testBit_and, Nat.testBit_and, Bool.and_eq_true, Bool.and_eq_true] at hpush2
      obtain ⟨⟨hA, -⟩, -⟩ := hpush2
      rw [Nat.testBit_shiftRight] at hA
      have h64 : 8 + (8 + bit) < 64 := testBit_lt_64 (hinv.1 _ _) hA
      refine ⟨?_, ?_, by simp⟩
      · rw [hside]
        simp only [pawnDoublePushFrom]
        rw [mkSquare_val (by omega)]
        have hcomm : bit + 16 = 8 + (8 + bit) := by omega
        rw [hcomm]
        exact hA
      · rw [mkSquare_val hlt]
        exact testBit_empty_bb hlt hemp
  · rcases List.mem_flatMap.mp hc with ⟨fromSq, hfrom, hm2⟩
    have hf := mem_squaresOf hfrom
    simp only [List.mem_append] at hm2
    rcases hm2 with hnc | hec
    · rcases List.mem_flatMap.mp hnc with ⟨toSq, hto, hm3⟩
      have htb := mem_squaresOf hto
      rw [Nat.testBit_and, Bool.and_eq_true] at htb
      rcases hocc : b.get_occupancy_piece b.game_state.side_to_move.opposite toSq with _ | cp
      · rw [hocc] at hm3
        exact absurd hm3 (List.not_mem_nil _)
      · rw [hocc] at hm3
        by_cases hr : toSq.rankIdx = promotionRankIdx b.game_state.side_to_move
        · simp only [hr, eq_self_iff_true, if_true] at hm3
          rcases List.mem_map.mp hm3 with ⟨pp, hpp, rfl⟩
          exact ⟨hf, occupancy_piece_testBit hocc,
            fun q hq => Option.some.inj hq ▸ promotion_piece_ne_pawn hpp⟩
        · simp only [if_neg hr] at hm3
          rcases List.mem_singleton.mp hm3 with rfl
          exact ⟨hf, occupancy_piece_testBit hocc, by simp⟩
    · rcases hep : b.game_state.en_passant_square with _ | e
      · rw [hep] at hec
        simp at hec
      · rw [hep] at hec
        obtain ⟨htar, hempE, hbehind⟩ := hinv.2.2.2.2.2 e hep
        simp only [htar, eq_self_iff_true, if_true] at hec
        have hsq : sqBit e ≠ 0 := by simp [sqBit_eq]
        rw [if_pos hsq] at hec
        by_cases hat : get_pawn_attacks_mask b.game_state.side_to_move fromSq &&& sqBit e = 0
        · rw [if_neg (fun h => h hat)] at hec
          exact absurd hec (List.not_mem_nil _)
        · rw [if_pos hat] at hec
          rcases List.mem_singleton.mp hec with rfl
          have hx : get_pawn_attacks_mask b.game_state.side_to_move fromSq &&& sqBit e =
              sqBit e := land_sqBit_ne_zero hat
          rw [hx]
          have hbi : bitIndices (sqBit e) = [e.val] := by
            rw [sqBit_eq]
            exact bitIndices_two_pow e.isLt
          rw [hbi]
          simp only [List.headD_cons]
          have he : mkSquare e.val = e := Fin.ext (mkSquare_val e.isLt)
          rw [he]
          exact ⟨hf, ⟨rfl, hempE, hbehind⟩, by simp⟩

end Orion

namespace Orion

theorem boardInvCheck_iff (b : Board) : boardInvCheck b = true ↔ BoardInv b := by
  rw [boardInvCheck, BoardInv]
  simp only [Bool.and_eq_true, Bool.or_eq_true, List.all_eq_true, decide_eq_true_eq,
    beq_iff_eq]
  constructor
  · rintro ⟨⟨⟨⟨⟨h1, h2⟩, h3⟩, h4⟩, h5⟩, h6⟩
    refine ⟨?_, ?_, ?_, h4, ?_, ?_⟩
    · intro s p
      exact h1 s (by cases s <;> simp [Side.all]) p (by cases p <;> simp [Piece.all])
    · intro s p s2 p2 hne
      have := h2 s (by cases s <;> simp [Side.all]) p (by cases p <;> simp [Piece.all])
        s2 (by cases s2 <;> simp [Side.all]) p2 (by cases p2 <;> simp [Piece.all])
      rcases this with h | h
      · exact absurd ⟨h.1, h.2⟩ hne
      · exact h
    · intro s
      exact h3 s (by cases s <;> simp [Side.all])
    · intro s
      exact h5 s (by cases s <;> simp [Side.all])
    · intro e he
      rw [he] at h6
      simp only [Bool.and_eq_true] at h6
      exact ⟨h6.1.1, by simpa using h6.1.2, h6.2⟩
  · rintro ⟨h1, h2, h3, h4, h5, h6⟩
    refine ⟨⟨⟨⟨⟨fun s _ p _ => h1 s p, ?_⟩, fun s _ => h3 s⟩, h4⟩, fun s _ => h5 s⟩, ?_⟩
    · intro s _ p _ s2 _ p2 _
      by_cases hne : s = s2 ∧ p = p2
      · exact Or.inl ⟨by simp [hne.1], by simp [hne.2]⟩
      · exact Or.inr (h2 s p s2 p2 hne)
    · cases he : b.game_state.en_passant_square with
      | none => simp
      | some e =>
        have := h6 e he
        simp [this.1, this.2.1, this.2.2]

/-- C10: `impl PartialEq for Board` (board.rs) compares the twelve piece
bitboards, the occupancies, the game state, and only the *length* of the
history: replacing the history by any list of the same length leaves the
board equal under `boardEq`. -/
theorem c10_boardEq_ignores_history_entries (b : Board) (h2 : List HistoryEntry)
    (hlen : h2.length = b.history.length) : boardEq b { b with history := h2 } = true := by
  simp [boardEq, hlen]

/-- C5 counterexample: a FEN with White to move and en-passant square `e3`
(rank 3) is accepted by `parse_fen_string`, though the spec says a rank-3
square with White to move is rejected. -/
theorem c5_rank3_white_accepted_cex :
    (parse_fen_string "8/8/8/8/8/8/8/8 w - e3 0 1").toOption.map
      (fun b => (b.game_state.side_to_move, b.game_state.en_passant_square)) =
    some (Side.White, some (mkSquare 20)) := by decide

/-- C6 counterexample: a FEN whose full-move field is `"0"` parses
successfully with `full_moves_count = 0`, though the spec says it is
rejected. -/
theorem c6_zero_fullmove_accepted_cex :
    (parse_fen_string "8/8/8/8/8/8/8/8 w - - 0 0").toOption.map
      (fun b => b.game_state.full_moves_count) = some 0 := by decide

/-- C7 counterexample: `EMPTY_BOARD_FEN` parses to a board with zero kings
per side, so the FEN decoder does enforce no king-count invariant. -/
theorem c7_empty_fen_zero_kings_cex :
    (parse_fen_string EMPTY_BOARD_FEN).toOption.map
      (fun b => (countOnes (b.get_bb .White .King), countOnes (b.get_bb .Black .King))) =
    some (0, 0) := by decide

/-- C4: the worker's `Go` arm (messaging.rs) runs no alpha-beta search and
carries no search id: it sleeps, generates the legal moves of the position,
and indexes a random element of them, which on a position with no legal
moves (here a checkmate) is an out-of-range `random_range` call — the
modelled result is `none`, the Rust thread aborts instead of emitting
`bestmove 0000`. -/
theorem c4_go_thread_panics_without_legal_moves :
    go_thread_result ((parse_fen_string "7k/5Q2/6K1/8/8/8/8/8 b - - 0 1").toOption.getD
      Board.default) 0 = none := by decide

/-- C1 counterexample: on a board satisfying the structural invariants
whose castling-rights flag `K` is set while the white king is displaced,
the generated king-side castle is a legal move, yet `make_move` then
`unmake_move` does not restore the board (the king is conjured onto e1 by
the unmake). -/
theorem c1_castle_unmake_cex :
    (fun (b : Board) (mv : Move) =>
      BoardInv b ∧ mv ∈ b.generate_legal_moves b.game_state.side_to_move ∧
        ((b.make_move mv).unmake_move).map (fun b2 => boardEq b2 b) = some false)
    ((parse_fen_string "k7/8/8/8/8/8/8/K6R w K - 0 1").toOption.getD Board.default)
    (Move.castle (mkSquare 4) (mkSquare 6) CastlingSide.KingSide) := by
  refine ⟨(boardInvCheck_iff _).mp (by decide), by decide, by decide⟩

end Orion

namespace Orion

theorem pseudo_move_ok {b : Board} (hinv : BoardInv b) (hcc : castlingCoherent b) {m : Move}
    (hm : m ∈ b.generate_pseudo_legal_moves b.game_state.side_to_move) : MoveOk b m := by
  simp only [Board.generate_pseudo_legal_moves, List.mem_append] at hm
  rcases hm with ((((((hp | hn) | hb2) | hr) | hq) | hk) | hcs)
  · exact pawn_move_ok hinv hp
  · exact leaper_move_ok hinv hn
  · rw [sliding_eq_leaper] at hb2
    exact leaper_move_ok hinv hb2
  · rw [sliding_eq_leaper] at hr
    exact leaper_move_ok hinv hr
  · rw [sliding_eq_leaper] at hq
    exact leaper_move_ok hinv hq
  · exact leaper_move_ok hinv hk
  · exact castling_move_ok hcc hcs

/-- C1 (amended): on a board satisfying the structural invariants whose
remaining castling rights still have king and rook on their home squares,
and whose history stack is not full, playing any generated legal move with
`make_move` and then calling `unmake_move` restores the position exactly in
the `PartialEq` sense: all twelve piece bitboards, both side occupancies,
the global occupancy, the full game state and the history length. -/
theorem c1_reversibility {b : Board} (hinv : BoardInv b) (hcc : castlingCoherent b)
    (hhist : b.history.length < MAX_MOVES_COUNT) {m : Move}
    (hm : m ∈ b.generate_legal_moves b.game_state.side_to_move) :
    ∃ b2, (b.make_move m).unmake_move = some b2 ∧ boardEq b2 b = true :=
  restore_of_ok hinv (pseudo_move_ok hinv hcc (List.mem_filter.mp hm).1)

theorem c1_reversibility_witness :
    ∃ b2, ((((parse_fen_string "k7/8/8/8/8/8/8/K7 w - - 0 1").toOption.getD
        Board.default).make_move
        (Move.normal (mkSquare 0) (mkSquare 1) Piece.King none none MoveFlags.NONE)).unmake_move =
        some b2 ∧
      boardEq b2 ((parse_fen_string "k7/8/8/8/8/8/8/K7 w - - 0 1").toOption.getD
        Board.default) = true) :=
  c1_reversibility ((boardInvCheck_iff _).mp (by decide))
    ⟨fun h => absurd h (by decide), fun h => absurd h (by decide),
     fun h => absurd h (by decide), fun h => absurd h (by decide)⟩
    (by decide) (by decide)

end Orion

namespace Orion

theorem insertMoveDesc_mem {z x : Move × Int} {l : List (Move × Int)} :
    z ∈ insertMoveDesc x l ↔ z = x ∨ z ∈ l := by
  induction l with
  | nil => simp [insertMoveDesc]
  | cons y ys ih =>
    rw [insertMoveDesc]
    split
    · simp [List.mem_cons]
    · simp only [List.mem_cons, ih]
      tauto

theorem insertMoveDesc_length (x : Move × Int) (l : List (Move × Int)) :
    (insertMoveDesc x l).length = l.length + 1 := by
  induction l with
  | nil => rfl
  | cons y ys ih =>
    rw [insertMoveDesc]
    split
    · simp
    · simp [ih]

theorem foldl_insert_mem {z : Move × Int} (l acc : List (Move × Int)) :
    (z ∈ l.foldl (fun acc x => insertMoveDesc x acc) acc) ↔ z ∈ l ∨ z ∈ acc := by
  induction l generalizing acc with
  | nil => simp
  | cons y ys ih =>
    rw [List.foldl_cons, ih, insertMoveDesc_mem]
    simp only [List.mem_cons]
    tauto

theorem foldl_insert_length (l acc : List (Move × Int)) :
    (l.foldl (fun acc x => insertMoveDesc x acc) acc).length = l.length + acc.length := by
  induction l generalizing acc with
  | nil => simp
  | cons y ys ih =>
    rw [List.foldl_cons, ih, insertMoveDesc_length]
    simp only [List.length_cons]
    omega

theorem mem_sort_moves {km : Killers} {h : HistTable} {moves : List Move} {ply : Nat}
    {oc : Bool} {m : Move} (hm : m ∈ sort_moves km h moves ply oc) : m ∈ moves := by
  rw [sort_moves] at hm
  split at hm
  · exact hm
  · rcases List.mem_map.mp hm with ⟨p, hp, rfl⟩
    rcases (foldl_insert_mem _ _).mp hp with hpl | hpl
    · rcases List.mem_map.mp hpl with ⟨m2, hm2, rfl⟩
      exact hm2
    · exact absurd hpl (List.not_mem_nil _)

theorem sort_moves_length (km : Killers) (h : HistTable) (moves : List Move) (ply : Nat)
    (oc : Bool) : (sort_moves km h moves ply oc).length = moves.length := by
  rw [sort_moves]
  split
  · rfl
  · rw [List.length_map, foldl_insert_length, List.length_map]
    simp

theorem root_loop_mem {P : Move → Prop} {b : Board} {depth : Nat} {stop : StopOracle} :
    ∀ {l : List Move} {best_mv : Move} {bs alpha beta : Int} {st : SearchState}
      {mv : Move} {st2 : SearchState},
      P best_mv → (∀ x ∈ l, P x) →
      root_loop b depth stop l best_mv bs alpha beta st = some (mv, st2) → P mv := by
  intro l
  induction l with
  | nil =>
    intro best_mv bs alpha beta st mv st2 hb _ h
    simp only [root_loop, Option.some.injEq, Prod.mk.injEq] at h
    obtain ⟨rfl, rfl⟩ := h
    exact hb
  | cons y ys ih =>
    intro best_mv bs alpha beta st mv st2 hb hl h
    rw [root_loop] at h
    split at h
    · simp only [Option.some.injEq, Prod.mk.injEq] at h
      obtain ⟨rfl, rfl⟩ := h
      exact hb
    · dsimp only at h
      split at h
      · exact absurd h (by simp)
      · refine ih ?_ (fun x hx => hl x (List.mem_cons_of_mem _ hx)) h
        split
        · exact hl y (List.mem_cons_self _ _)
        · exact hb

set_option maxHeartbeats 1000000 in
/-- C2: whenever `search_bestmove` returns (no panic path was taken), the
inner result is `none` exactly when the root position has no legal moves,
and any returned move is a member of the root legal move list — including
when the stop flag cut the root loop short. -/
theorem c2_bestmove_legality {b : Board} {depth : Nat} {stop : StopOracle}
    {hist0 : HistTable} {res : Option Move} {stf : SearchState}
    (h : search_bestmove b depth stop hist0 = some (res, stf)) :
    (res = none ↔ b.generate_all_legal_moves b.game_state.side_to_move = []) ∧
    (∀ m, res = some m → m ∈ b.generate_all_legal_moves b.game_state.side_to_move) := by
  rw [search_bestmove] at h
  dsimp only at h
  by_cases hlen : (b.generate_all_legal_moves b.game_state.side_to_move).length = 0
  · rw [if_pos hlen] at h
    simp only [Option.some.injEq, Prod.mk.injEq] at h
    obtain ⟨rfl, rfl⟩ := h
    have hnil := List.length_eq_zero.mp hlen
    exact ⟨by simp [hnil], by simp⟩
  · rw [if_neg hlen] at h
    split at h
    · rename_i heq
      have hlen2 := sort_moves_length clear_killers (normalize_history hist0)
        (b.generate_all_legal_moves b.game_state.side_to_move) 0
        (decide (depth ≤ ONLY_CAPTURES_DEPTH))
      rw [heq] at hlen2
      exact absurd hlen2.symm hlen
    · rename_i mv0 tail heq
      split at h
      · exact absurd h (by simp)
      · rename_i mv st3 heq2
        simp only [Option.some.injEq, Prod.mk.injEq] at h
        obtain ⟨rfl, rfl⟩ := h
        have hmem : mv ∈ b.generate_all_legal_moves b.game_state.side_to_move := by
          refine root_loop_mem ?_ ?_ heq2
          · have hs0 : mv0 ∈ sort_moves clear_killers (normalize_history hist0)
                (b.generate_all_legal_moves b.game_state.side_to_move) 0
                (decide (depth ≤ ONLY_CAPTURES_DEPTH)) := by
              rw [heq]
              exact List.mem_cons_self mv0 tail
            exact mem_sort_moves hs0
          · intro x hx
            exact mem_sort_moves hx
        refine ⟨⟨fun hn => absurd hn (by simp), ?_⟩, ?_⟩
        · intro hnil
          rw [hnil] at hmem
          exact absurd hmem (List.not_mem_nil _)
        · intro m hm
          obtain rfl := Option.some.inj hm
          exact hmem

set_option maxHeartbeats 1000000 in
/-- C3: `negamax_ab` returns 0 when the half-move clock has reached 100,
and on a position with no legal moves returns `-MATE_EVALUATION + ply`
when the side to move is in check and 0 (stalemate) otherwise. -/
theorem c3_negamax_terminal (bufs : Nat) (b : Board) (depth : Nat) (alpha beta : Int)
    (ply : Nat) (stop : StopOracle) (st : SearchState) :
    (b.game_state.half_move_clock ≥ 100 →
      negamax_ab bufs b depth alpha beta ply stop st = some (0, st)) ∧
    (b.game_state.half_move_clock < 100 → 1 ≤ bufs →
      b.generate_all_legal_moves b.game_state.side_to_move = [] →
      negamax_ab bufs b depth alpha beta ply stop st =
        some ((if b.is_in_check b.game_state.side_to_move then
          -MATE_EVALUATION + (ply : Int) else 0), st)) := by
  constructor
  · intro h100
    rw [negamax_ab.eq_def]
    dsimp only
    rw [if_pos h100]
  · intro h1 h2 h3
    rcases bufs with _ | bufs2
    · omega
    · rw [negamax_ab.eq_def]
      dsimp only
      rw [if_neg (by omega)]
      simp [h3]

end Orion

namespace Orion

theorem c2_bestmove_legality_witness :
    (some (Move.normal (mkSquare 0) (mkSquare 1) Piece.King none none MoveFlags.NONE) =
        none ↔
      Board.generate_all_legal_moves
        ((parse_fen_string "k7/8/8/8/8/8/8/K7 w - - 0 1").toOption.getD Board.default)
        ((parse_fen_string "k7/8/8/8/8/8/8/K7 w - - 0 1").toOption.getD
          Board.default).game_state.side_to_move = []) ∧
    (∀ m, some (Move.normal (mkSquare 0) (mkSquare 1) Piece.King none none MoveFlags.NONE) =
        some m →
      m ∈ Board.generate_all_legal_moves
        ((parse_fen_string "k7/8/8/8/8/8/8/K7 w - - 0 1").toOption.getD Board.default)
        ((parse_fen_string "k7/8/8/8/8/8/8/K7 w - - 0 1").toOption.getD
          Board.default).game_state.side_to_move) :=
  c2_bestmove_legality
    (show search_bestmove
        ((parse_fen_string "k7/8/8/8/8/8/8/K7 w - - 0 1").toOption.getD Board.default) 1
        (fun _ => true) histZero =
      some (some (Move.normal (mkSquare 0) (mkSquare 1) Piece.King none none MoveFlags.NONE),
        ⟨clear_killers, normalize_history histZero, 1⟩) from rfl)

theorem c3_negamax_terminal_witness :
    (negamax_ab 5 ((parse_fen_string "k7/8/8/8/8/8/8/K7 w - - 100 1").toOption.getD
        Board.default) 3 (-INFINITY) INFINITY 0 (fun _ => false)
        ⟨clear_killers, histZero, 0⟩ = some (0, ⟨clear_killers, histZero, 0⟩)) ∧
    (negamax_ab 5 ((parse_fen_string "7k/5Q2/6K1/8/8/8/8/8 b - - 0 1").toOption.getD
        Board.default) 3 (-INFINITY) INFINITY 2 (fun _ => false)
        ⟨clear_killers, histZero, 0⟩ = some (0, ⟨clear_killers, histZero, 0⟩)) ∧
    (negamax_ab 5 ((parse_fen_string "7k/6Q1/6K1/8/8/8/8/8 b - - 0 1").toOption.getD
        Board.default) 3 (-INFINITY) INFINITY 4 (fun _ => false)
        ⟨clear_killers, histZero, 0⟩ =
      some (-MATE_EVALUATION + 4, ⟨clear_killers, histZero, 0⟩)) := by
  refine ⟨(c3_negamax_terminal 5 _ 3 (-INFINITY) INFINITY 0 (fun _ => false) _).1
      (by decide), ?_, ?_⟩
  · rw [(c3_negamax_terminal 5 _ 3 (-INFINITY) INFINITY 2 (fun _ => false) _).2
      (by decide) (by decide) (by decide), if_neg (by decide)]
  · rw [(c3_negamax_terminal 5 _ 3 (-INFINITY) INFINITY 4 (fun _ => false) _).2
      (by decide) (by decide) (by decide), if_pos (by decide)]
    norm_num

end Orion

namespace Orion

/-- C5 (amended): `parse_fen_string` accepts an en-passant field naming a
square exactly when the square lies on rank 3 or rank 6 (indices 16–23 and
40–47), irrespective of the side to move parsed from the same FEN. -/
theorem c5_en_passant_rank_only :
    ((List.range 64).all fun v =>
      [Side.White, Side.Black].all fun s =>
        decide ((parse_fen_string (epProbeFen s (mkSquare v))).toOption.map
            (fun b => b.game_state.en_passant_square) =
          (if (16 ≤ v ∧ v ≤ 23) ∨ (40 ≤ v ∧ v ≤ 47) then some (some (mkSquare v))
            else none))) = true := by decide

theorem digitsVal_aux (ds : List Char) (a : Nat) (hd : ∀ c ∈ ds, c.isDigit = true) :
    ds.foldl (fun acc c => match acc with
      | some x => if c.isDigit then some (x * 10 + (c.toNat - '0'.toNat)) else none
      | none => none) (some a) =
    some (ds.foldl (fun x c => 10 * x + (c.toNat - '0'.toNat)) a) := by
  induction ds generalizing a with
  | nil => rfl
  | cons c rest ih =>
    rw [List.foldl_cons, List.foldl_cons]
    have hc : c.isDigit = true := hd c (List.mem_cons_self _ _)
    dsimp only
    rw [if_pos hc, Nat.mul_comm a 10]
    exact ih _ (fun x hx => hd x (List.mem_cons_of_mem _ hx))

theorem digitsVal_digits {ds : List Char} (hne : ds ≠ [])
    (hd : ∀ c ∈ ds, c.isDigit = true) : digitsVal ds = some (decimalValue ds) := by
  rcases ds with _ | ⟨c, rest⟩
  · exact absurd rfl hne
  · show (c :: rest).foldl _ (some 0) = _
    rw [digitsVal_aux _ 0 hd]
    rfl

theorem parseRustUInt_digits {maxVal : Nat} {ds : List Char} (hne : ds ≠ [])
    (hd : ∀ c ∈ ds, c.isDigit = true) :
    parseRustUInt maxVal ds =
      if decimalValue ds ≤ maxVal then some (decimalValue ds) else none := by
  rcases ds with _ | ⟨c, rest⟩
  · exact absurd rfl hne
  · have hc : c.isDigit = true := hd c (List.mem_cons_self _ _)
    have hcp : c ≠ '+' := by
      intro h
      rw [h] at hc
      exact absurd hc (by decide)
    rw [parseRustUInt]
    split
    · rename_i a heq
      rw [digitsVal_digits hne hd] at heq
      obtain rfl := Option.some.inj heq
      rfl
    · rename_i heq
      rw [digitsVal_digits hne hd] at heq
      exact absurd heq (by simp)
    · intro rest1 hcons
      injection hcons with h1 h2
      exact absurd h1 hcp

/-- C6 (amended): a full-move field of 1 to 5 digit characters is accepted
exactly when its decimal value is at most 65535 — the accepted range is
0..=65535, including 0. -/
theorem c6_full_move_range (b : Board) (ds : List Char) (hne : ds ≠ [])
    (hlen : ds.length ≤ 5) (hdig : ∀ c ∈ ds, c.isDigit = true) :
    parse_full_move_number b (String.mk ds) =
      (if decimalValue ds ≤ 65535 then
        Except.ok { b with game_state := { b.game_state with
          full_moves_count := decimalValue ds } }
      else Except.error ParseFenError.FullMoveCountParse) := by
  have hL : 1 ≤ ds.length ∧ ds.length ≤ 5 :=
    ⟨List.length_pos.mpr hne, hlen⟩
  have hts : (String.mk ds).toList = ds := rfl
  rw [parse_full_move_number, hts]
  rw [if_pos hL]
  rw [parseRustUInt_digits hne hdig]
  by_cases hv : decimalValue ds ≤ 65535
  · rw [if_pos hv, if_pos hv]
  · rw [if_neg hv, if_neg hv]

theorem c6_full_move_range_witness :
    parse_full_move_number Board.default (String.mk ['0']) =
      (if decimalValue ['0'] ≤ 65535 then
        Except.ok { Board.default with game_state := { Board.default.game_state with
          full_moves_count := decimalValue ['0'] } }
      else Except.error ParseFenError.FullMoveCountParse) :=
  c6_full_move_range Board.default ['0'] (by decide) (by decide) (by decide)

end Orion

namespace Orion

theorem mvv_ge_100 : ∀ p c : Piece, 100 ≤ get_mvv_score p c := by decide

theorem score_capture_ge (km : Killers) (h : HistTable) {mv : Move} (ply : Nat)
    (oc : Bool) (hc : mv.is_capture = true) :
    100100 ≤ score_move km h mv ply oc := by
  rcases mv with ⟨f, t, pc, cap, promo, flags⟩ | ⟨f, t, cs⟩
  · rcases cap with _ | cp
    · exact absurd hc (by simp [Move.is_capture])
    · rw [score_move, if_pos hc]
      show 100100 ≤ get_mvv_score pc cp + 100000
      have := mvv_ge_100 pc cp
      omega
  · exact absurd hc (by simp [Move.is_capture])

theorem u64AsI32_lt_of_lt {v c : Nat} (hv : v < c) (hc : c ≤ 2 ^ 31) :
    u64AsI32 v < (c : Int) := by
  rw [u64AsI32]
  have hr : v % 2 ^ 32 = v := Nat.mod_eq_of_lt (by omega)
  rw [hr, if_pos (by omega)]
  exact_mod_cast hv

theorem score_quiet_lt (km : Killers) (h : HistTable) {mv : Move} (ply : Nat)
    (hq : mv.is_capture = false) (hh : ∀ f t, h f t < 100100) :
    score_move km h mv ply false < 100100 := by
  rcases mv with ⟨f, t, pc, cap, promo, flags⟩ | ⟨f, t, cs⟩
  · rcases cap with _ | cp
    · simp only [score_move, Move.is_capture, Bool.false_eq_true, if_false]
      split
      · omega
      · split
        · omega
        · exact u64AsI32_lt_of_lt (hh _ _) (by norm_num)
    · exact absurd hq (by simp [Move.is_capture])
  · simp only [score_move, Move.is_capture, Bool.false_eq_true, if_false]
    split
    · omega
    · split
      · omega
      · exact u64AsI32_lt_of_lt (hh _ _) (by norm_num)

theorem insertMoveDesc_pairwise {x : Move × Int} {l : List (Move × Int)}
    (hl : l.Pairwise (fun a b => b.2 ≤ a.2)) :
    (insertMoveDesc x l).Pairwise (fun a b => b.2 ≤ a.2) := by
  induction l with
  | nil => simp [insertMoveDesc]
  | cons y ys ih =>
    rw [insertMoveDesc]
    obtain ⟨hy, hys⟩ := List.pairwise_cons.mp hl
    split
    · rename_i hlt
      rw [List.pairwise_cons]
      refine ⟨?_, hl⟩
      intro b hb
      rcases List.mem_cons.mp hb with rfl | hb2
      · exact le_of_lt hlt
      · exact le_trans (hy b hb2) (le_of_lt hlt)
    · rename_i hge
      rw [List.pairwise_cons]
      refine ⟨?_, ih hys⟩
      intro b hb
      rcases insertMoveDesc_mem.mp hb with rfl | hb2
      · exact not_lt.mp hge
      · exact hy b hb2

theorem foldl_insert_pairwise (l acc : List (Move × Int))
    (hacc : acc.Pairwise (fun a b => b.2 ≤ a.2)) :
    (l.foldl (fun acc x => insertMoveDesc x acc) acc).Pairwise
      (fun a b => b.2 ≤ a.2) := by
  induction l generalizing acc with
  | nil => exact hacc
  | cons y ys ih =>
    rw [List.foldl_cons]
    exact ih _ (insertMoveDesc_pairwise hacc)

theorem sort_moves_pairwise (km : Killers) (h : HistTable) (moves : List Move) (ply : Nat)
    (oc : Bool) :
    (sort_moves km h moves ply oc).Pairwise
      (fun a b => score_move km h b ply oc ≤ score_move km h a ply oc) := by
  rw [sort_moves]
  split
  · rename_i hle
    rcases moves with _ | ⟨m, _ | ⟨m2, r⟩⟩
    · simp
    · simp
    · simp at hle
  · rw [List.pairwise_map]
    refine (foldl_insert_pairwise _ [] (by simp)).imp_of_mem ?_
    intro a b ha hb hR
    rcases (foldl_insert_mem _ _).mp ha with ha2 | ha2
    · rcases (foldl_insert_mem _ _).mp hb with hb2 | hb2
      · rcases List.mem_map.mp ha2 with ⟨ma, _, rfl⟩
        rcases List.mem_map.mp hb2 with ⟨mb, _, rfl⟩
        exact hR
      · exact absurd hb2 (List.not_mem_nil _)
    · exact absurd ha2 (List.not_mem_nil _)

/-- C8 (amended): when every history counter is below 100100, every capture
scores strictly above every quiet move, and `sort_moves` places every
capture before every quiet move. -/
theorem c8_capture_ordering {km : Killers} {h : HistTable} {moves : List Move} {ply : Nat}
    (hh : ∀ f t, h f t < 100100) :
    (∀ c q : Move, c.is_capture = true → q.is_capture = false →
      score_move km h q ply false < score_move km h c ply false) ∧
    (sort_moves km h moves ply false).Pairwise
      (fun a b => b.is_capture = true → a.is_capture = true) := by
  constructor
  · intro c q hcc hqq
    calc score_move km h q ply false < 100100 := score_quiet_lt km h ply hqq hh
    _ ≤ score_move km h c ply false := score_capture_ge km h ply false hcc
  · refine (sort_moves_pairwise km h moves ply false).imp ?_
    intro a b hR hb
    by_contra ha
    have ha2 : a.is_capture = false := by
      cases hcap : a.is_capture
      · rfl
      · exact absurd hcap ha
    have h1 := score_quiet_lt km h ply ha2 hh
    have h2 := score_capture_ge km h ply false hb
    omega

/-- C8 counterexample: a history counter of 200000 at a quiet move's
from/to pair outranks a pawn-takes-pawn capture (score 100105), and
`sort_moves` then puts the quiet move first. -/
theorem c8_history_outranks_captures :
    score_move clear_killers
      (fun x y => if x = 0 ∧ y = 1 then 200000 else 0)
      (Move.normal (mkSquare 0) (mkSquare 1) Piece.Rook none none MoveFlags.NONE) 0 false >
    score_move clear_killers
      (fun x y => if x = 0 ∧ y = 1 then 200000 else 0)
      (Move.normal (mkSquare 8) (mkSquare 16) Piece.Pawn (some Piece.Pawn) none
        MoveFlags.NONE) 0 false ∧
    sort_moves clear_killers (fun x y => if x = 0 ∧ y = 1 then 200000 else 0)
      [Move.normal (mkSquare 8) (mkSquare 16) Piece.Pawn (some Piece.Pawn) none
        MoveFlags.NONE,
       Move.normal (mkSquare 0) (mkSquare 1) Piece.Rook none none MoveFlags.NONE] 0 false =
      [Move.normal (mkSquare 0) (mkSquare 1) Piece.Rook none none MoveFlags.NONE,
       Move.normal (mkSquare 8) (mkSquare 16) Piece.Pawn (some Piece.Pawn) none
         MoveFlags.NONE] := by
  exact ⟨by decide, by decide⟩

theorem c8_capture_ordering_witness :
    (∀ c q : Move, c.is_capture = true → q.is_capture = false →
      score_move clear_killers histZero q 0 false <
        score_move clear_killers histZero c 0 false) ∧
    (sort_moves clear_killers histZero
      [Move.normal (mkSquare 8) (mkSquare 16) Piece.Pawn (some Piece.Pawn) none
        MoveFlags.NONE,
       Move.normal (mkSquare 0) (mkSquare 1) Piece.Rook none none MoveFlags.NONE]
      0 false).Pairwise
      (fun a b => b.is_capture = true → a.is_capture = true) :=
  c8_capture_ordering (fun _ _ => by norm_num [histZero])

end Orion

namespace Orion

theorem countOnes_two_pow {k : Nat} (hk : k < 64) : countOnes (2 ^ k) = 1 := by
  rw [countOnes, bitIndices_two_pow hk]
  rfl

theorem countOnes_one_two_pow {bb : Nat} (hbb : bb < 2 ^ 64) (h1 : countOnes bb = 1)
    {j : Nat} (hj : bb.testBit j = true) : bb = 2 ^ j := by
  rw [countOnes] at h1
  obtain ⟨k, hk⟩ := List.length_eq_one.mp h1
  have hj64 : j < 64 := testBit_lt_64 hbb hj
  have hjm : j ∈ bitIndices bb := mem_bitIndices.mpr ⟨hj64, hj⟩
  rw [hk] at hjm
  obtain rfl := List.mem_singleton.mp hjm
  apply Nat.eq_of_testBit_eq
  intro i
  by_cases hi : i < 64
  · by_cases hij : i = j
    · subst hij
      rw [hj, Nat.testBit_two_pow_self]
    · have hbi : bb.testBit i = false := by
        cases hx : bb.testBit i
        · rfl
        · have : i ∈ bitIndices bb := mem_bitIndices.mpr ⟨hi, hx⟩
          rw [hk] at this
          exact absurd (List.mem_singleton.mp this) hij
      rw [hbi, Nat.testBit_two_pow_of_ne (fun h => hij h.symm)]
  · rw [testBit_of_ge_64 hbb (by omega),
      Nat.testBit_two_pow_of_ne (by omega)]

theorem clear_own_set {f t : Square} {bb : Nat} (hbb : bb = 2 ^ f.val) :
    countOnes ((bb &&& compl64 (sqBit f)) ||| sqBit t) = 1 := by
  subst hbb
  have h0 : (2 ^ f.val &&& compl64 (sqBit f)) = 0 := by
    apply Nat.eq_of_testBit_eq
    intro i
    rw [Nat.testBit_and, sqBit_eq, Nat.zero_testBit]
    by_cases hi : i = f.val
    · subst hi
      rw [testBit_compl64_of_lt f.isLt, Nat.testBit_two_pow_self]
      simp
    · rw [Nat.testBit_two_pow_of_ne (fun h => hi h.symm)]
      simp
  rw [h0, Nat.zero_or, sqBit_eq]
  exact countOnes_two_pow t.isLt

/-- C7 (amended): the start position has exactly one king per side, and
`make_move` preserves the one-king-per-side property for any structurally
sound move that does not capture a king or promote to a king; the FEN
decoder itself enforces no king-count constraint (see the counterexample). -/
theorem c7_king_count :
    (∀ s : Side, countOnes (Board.get_start_position.get_bb s .King) = 1) ∧
    (∀ (b : Board) (m : Move), BoardInv b → MoveOk b m →
      (match m with
        | .normal _ _ pc cap promo _ =>
          cap ≠ some Piece.King ∧ promo ≠ some Piece.King ∧
            (pc = Piece.King → promo = none)
        | .castle _ _ _ => True) →
      ∀ s, countOnes ((b.make_move m).get_bb s .King) = 1) := by
  constructor
  · intro s
    rcases s
    · decide
    · decide
  · intro b m hinv hok hside s
    have hbb64 := hinv.1
    have hones := hinv.2.2.2.2.1
    rcases m with ⟨f, t, pc, cap, promo, flags⟩ | ⟨cf, ct, cside⟩
    case normal =>
      obtain ⟨hcapK, hpromoK, hkpn⟩ := hside
      obtain ⟨hfrom, hcap2, hpromo2⟩ := hok
      rcases promo with _ | pp
      · rcases cap with _ | cp
        · simp only [Board.make_move, makeNormalPieces, Board.add_piece,
            Board.remove_piece, Board.get_bb, updateBB, Option.getD_none]
          by_cases hk : s = b.game_state.side_to_move ∧ Piece.King = pc
          · obtain ⟨hs, hp⟩ := hk
            subst hs
            subst hp
            rw [if_pos ⟨rfl, rfl⟩, if_pos ⟨trivial, trivial⟩]
            exact clear_own_set (countOnes_one_two_pow (hbb64 _ _) (hones _) hfrom)
          · rw [if_neg hk, if_neg hk]
            exact hones s
        · have hcpK : cp ≠ Piece.King := fun h => hcapK (by rw [h])
          simp only [Board.make_move, makeNormalPieces, Board.add_piece,
            Board.remove_piece, Board.get_bb, updateBB, Option.getD_none]
          by_cases hk : s = b.game_state.side_to_move ∧ Piece.King = pc
          · obtain ⟨hs, hp⟩ := hk
            subst hs
            subst hp
            rw [if_pos ⟨rfl, rfl⟩,
              if_neg (fun hc => side_opposite_ne _ hc.1.symm),
              if_pos ⟨trivial, trivial⟩]
            exact clear_own_set (countOnes_one_two_pow (hbb64 _ _) (hones _) hfrom)
          · rw [if_neg hk]
            by_cases hk2 : s = b.game_state.side_to_move.opposite ∧ Piece.King = cp
            · exact absurd hk2.2.symm hcpK
            · rw [if_neg hk2, if_neg hk]
              exact hones s
      · have hppK : pp ≠ Piece.King := fun h => hpromoK (by rw [h])
        have hpcK : pc ≠ Piece.King := by
          intro h
          have := hkpn h
          exact Option.noConfusion this
        rcases cap with _ | cp
        · simp only [Board.make_move, makeNormalPieces, Board.add_piece,
            Board.remove_piece, Board.get_bb, updateBB, Option.getD_some]
          rw [if_neg (fun hc => hppK hc.2.symm), if_neg (fun hc => hpcK hc.2.symm)]
          exact hones s
        · have hcpK : cp ≠ Piece.King := fun h => hcapK (by rw [h])
          simp only [Board.make_move, makeNormalPieces, Board.add_piece,
            Board.remove_piece, Board.get_bb, updateBB, Option.getD_some]
          rw [if_neg (fun hc => hppK hc.2.symm), if_neg (fun hc => hcpK hc.2.symm),
            if_neg (fun hc => hpcK hc.2.symm)]
          exact hones s
    case castle =>
      obtain ⟨hkb, hrb, he1, he2⟩ := hok
      simp only [Board.make_move, makeCastlePieces, Board.move_piece, Board.add_piece,
        Board.remove_piece, Board.get_bb, updateBB]
      have hKR : ¬(s = b.game_state.side_to_move ∧ Piece.King = Piece.Rook) :=
        fun hc => by cases hc.2
      rw [if_neg hKR, if_neg hKR]
      by_cases hsm : s = b.game_state.side_to_move
      · subst hsm
        rw [if_pos ⟨rfl, trivial⟩, if_pos ⟨trivial, trivial⟩]
        exact clear_own_set (countOnes_one_two_pow (hbb64 _ _) (hones _) hkb)
      · have hnc : ¬(s = b.game_state.side_to_move ∧ True) :=
          fun hc => hsm hc.1
        rw [if_neg hnc, if_neg hnc]
        exact hones s

theorem c7_king_count_witness :
    countOnes ((Board.get_start_position.make_move
      (Move.normal (mkSquare 12) (mkSquare 28) Piece.Pawn none none
        MoveFlags.DOUBLE_PUSH)).get_bb Side.White .King) = 1 ∧
    countOnes ((Board.get_start_position.make_move
      (Move.normal (mkSquare 12) (mkSquare 28) Piece.Pawn none none
        MoveFlags.DOUBLE_PUSH)).get_bb Side.Black .King) = 1 ∧
    countOnes (Board.get_start_position.get_bb Side.White .King) = 1 :=
  ⟨c7_king_count.2 Board.get_start_position
      (Move.normal (mkSquare 12) (mkSquare 28) Piece.Pawn none none MoveFlags.DOUBLE_PUSH)
      ((boardInvCheck_iff _).mp (by decide))
      ⟨by decide, by decide, by simp⟩
      ⟨by decide, by decide, fun h => by cases h⟩ Side.White,
   c7_king_count.2 Board.get_start_position
      (Move.normal (mkSquare 12) (mkSquare 28) Piece.Pawn none none MoveFlags.DOUBLE_PUSH)
      ((boardInvCheck_iff _).mp (by decide))
      ⟨by decide, by decide, by simp⟩
      ⟨by decide, by decide, fun h => by cases h⟩ Side.Black,
   c7_king_count.1 Side.White⟩

end Orion

namespace Orion

theorem lor_ne_zero_left {a b : Nat} (ha : a ≠ 0) : a ||| b ≠ 0 := by
  rcases Nat.ne_zero_implies_bit_true ha with ⟨i, hi⟩
  refine testBit_ne_zero (i := i) ?_
  rw [Nat.testBit_or, hi]
  rfl

theorem lor_ne_zero_right {a b : Nat} (hb : b ≠ 0) : a ||| b ≠ 0 := by
  rcases Nat.ne_zero_implies_bit_true hb with ⟨i, hi⟩
  refine testBit_ne_zero (i := i) ?_
  rw [Nat.testBit_or, hi]
  simp

theorem attackRay_ne_zero {blockers : Nat} {r f dr df : Int} (fuel : Nat)
    (hr : 0 ≤ r ∧ r < 8 ∧ 0 ≤ f ∧ f < 8) :
    attackRay blockers r f dr df (fuel + 1) ≠ 0 := by
  rw [attackRay, if_pos hr]
  dsimp only
  split
  · rw [square_mask, Nat.one_shiftLeft]
    exact (Nat.two_pow_pos _).ne'
  · refine lor_ne_zero_left ?_
    rw [square_mask, Nat.one_shiftLeft]
    exact (Nat.two_pow_pos _).ne'

theorem generate_bishop_ne_zero (sq : Square) (blockers : Nat) :
    generate_bishop_attacks_mask sq blockers ≠ 0 := by
  have hv := sq.isLt
  have hr8 : sq.rankIdx < 8 := by
    rw [Square.rankIdx]
    omega
  have hf8 : sq.fileIdx < 8 := by
    rw [Square.fileIdx]
    omega
  rw [generate_bishop_attacks_mask]
  by_cases h1 : sq.rankIdx < 7
  · by_cases h2 : sq.fileIdx < 7
    · refine lor_ne_zero_left (lor_ne_zero_left (lor_ne_zero_left ?_))
      exact attackRay_ne_zero 7 ⟨by omega, by omega, by omega, by omega⟩
    · refine lor_ne_zero_left (lor_ne_zero_left (lor_ne_zero_right ?_))
      exact attackRay_ne_zero 7 ⟨by omega, by omega, by omega, by omega⟩
  · by_cases h2 : sq.fileIdx < 7
    · refine lor_ne_zero_left (lor_ne_zero_right ?_)
      exact attackRay_ne_zero 7 ⟨by omega, by omega, by omega, by omega⟩
    · refine lor_ne_zero_right ?_
      exact attackRay_ne_zero 7 ⟨by omega, by omega, by omega, by omega⟩

theorem generate_rook_ne_zero (sq : Square) (blockers : Nat) :
    generate_rook_attacks_mask sq blockers ≠ 0 := by
  have hv := sq.isLt
  have hr8 : sq.rankIdx < 8 := by
    rw [Square.rankIdx]
    omega
  have hf8 : sq.fileIdx < 8 := by
    rw [Square.fileIdx]
    omega
  rw [generate_rook_attacks_mask]
  by_cases h1 : sq.rankIdx < 7
  · refine lor_ne_zero_left (lor_ne_zero_left (lor_ne_zero_left ?_))
    exact attackRay_ne_zero 7 ⟨by omega, by omega, by omega, by omega⟩
  · refine lor_ne_zero_left (lor_ne_zero_right ?_)
    exact attackRay_ne_zero 7 ⟨by omega, by omega, by omega, by omega⟩

theorem build_enum_aux (i : Nat) (bl : List Nat) :
    ∀ (k : Nat) (acc : Nat),
      (List.enumFrom k bl).foldl
        (fun blocker p => if i.testBit p.1 then blocker ||| (1 <<< p.2) else blocker) acc =
      acc ||| buildRec (i >>> k) bl := by
  induction bl with
  | nil =>
    intro k acc
    simp [buildRec]
  | cons b rest ih =>
    intro k acc
    rw [List.enumFrom_cons, List.foldl_cons, ih (k + 1)]
    rw [buildRec]
    have hb : (i >>> k) % 2 = 1 ↔ i.testBit k = true := by
      rw [Nat.testBit_to_div_mod, Nat.shiftRight_eq_div_pow]
      simp
    have hs : i >>> k / 2 = i >>> (k + 1) := by
      rw [Nat.shiftRight_eq_div_pow, Nat.shiftRight_eq_div_pow, Nat.div_div_eq_div_mul,
        pow_succ]
    rw [hs]
    by_cases ht : i.testBit k = true
    · rw [if_pos ht, if_pos (hb.mpr ht), Nat.or_assoc]
    · have hm : ¬((i >>> k) % 2 = 1) := fun hc => ht (hb.mp hc)
      rw [if_neg ht, if_neg hm, Nat.zero_or]

theorem build_blocker_eq_buildRec (i mask : Nat) :
    build_blocker_mask i mask = buildRec i (bitIndices mask) := by
  rw [build_blocker_mask, List.enum, build_enum_aux i _ 0 0, Nat.shiftRight_zero,
    Nat.zero_or]

theorem buildRec_surj : ∀ (bl : List Nat) (s : Nat),
    (∀ j, s.testBit j = true → j ∈ bl) →
    ∃ i, i < 2 ^ bl.length ∧ buildRec i bl = s := by
  intro bl
  induction bl with
  | nil =>
    intro s hs
    refine ⟨0, by norm_num, ?_⟩
    rw [buildRec]
    apply Nat.eq_of_testBit_eq
    intro j
    rw [Nat.zero_testBit]
    cases hx : s.testBit j
    · rfl
    · exact absurd (hs j hx) (List.not_mem_nil _)
  | cons b rest ih =>
    intro s hs
    have hsub : ∀ j, (s.ldiff (2 ^ b)).testBit j = true → j ∈ rest := by
      intro j hj
      rw [Nat.testBit_ldiff, Bool.and_eq_true] at hj
      have hjb : j ≠ b := by
        intro h
        subst h
        rw [Nat.testBit_two_pow_self] at hj
        simp at hj
      rcases List.mem_cons.mp (hs j hj.1) with h | h
      · exact absurd h hjb
      · exact h
    obtain ⟨i2, hi2, hrec⟩ := ih (s.ldiff (2 ^ b)) hsub
    refine ⟨(if s.testBit b then 1 else 0) + 2 * i2, ?_, ?_⟩
    · rw [List.length_cons, pow_succ]
      split <;> omega
    · rw [buildRec]
      have hm2 : ((if s.testBit b then 1 else 0) + 2 * i2) % 2 =
          (if s.testBit b then 1 else 0) := by
        split <;> omega
      have hd2 : ((if s.testBit b then 1 else 0) + 2 * i2) / 2 = i2 := by
        split <;> omega
      rw [hm2, hd2, hrec]
      by_cases hbb : s.testBit b = true
      · rw [if_pos hbb, if_pos rfl, Nat.one_shiftLeft]
        apply Nat.eq_of_testBit_eq
        intro j
        rw [Nat.testBit_or, Nat.testBit_ldiff]
        by_cases hj : j = b
        · subst hj
          rw [Nat.testBit_two_pow_self, hbb]
          simp
        · rw [Nat.testBit_two_pow_of_ne (fun h => hj h.symm)]
          simp
      · have hbf : s.testBit b = false := by
          cases hx : s.testBit b
          · rfl
          · exact absurd hx hbb
        rw [if_neg hbb, if_neg (by norm_num), Nat.zero_or]
        apply Nat.eq_of_testBit_eq
        intro j
        rw [Nat.testBit_ldiff]
        by_cases hj : j = b
        · subst hj
          rw [hbf]
          simp
        · rw [Nat.testBit_two_pow_of_ne (fun h => hj h.symm)]
          simp

end Orion

namespace Orion

theorem fill_preserve (magic bits : Nat) :
    ∀ (L : List (Nat × Nat)) (u1 u2 : Nat → Nat), (∀ j, u1 j = u2 j) →
      magic_check_loop magic bits u1 L = true →
      ∀ i, u1 i ≠ 0 → fill_attacks_table magic bits L u2 i = u1 i := by
  intro L
  induction L with
  | nil =>
    intro u1 u2 hptw _ i _
    rw [fill_attacks_table]
    exact (hptw i).symm
  | cons p rest ih =>
    intro u1 u2 hptw hchk i hne
    obtain ⟨occ, att⟩ := p
    rw [magic_check_loop] at hchk
    rw [fill_attacks_table]
    by_cases h0 : u1 (magicIndex magic bits occ) = 0
    · rw [if_pos h0] at hchk
      have hi_ne : i ≠ magicIndex magic bits occ := by
        intro h
        rw [h] at hne
        exact hne h0
      have hg := ih (Function.update u1 (magicIndex magic bits occ) att)
        (Function.update u2 (magicIndex magic bits occ) att)
        (fun j => by
          rw [Function.update_apply, Function.update_apply, hptw j])
        hchk i (by
          rw [Function.update_apply, if_neg hi_ne]
          exact hne)
      rw [Function.update_apply, if_neg hi_ne] at hg
      exact hg
    · rw [if_neg h0] at hchk
      by_cases h1 : u1 (magicIndex magic bits occ) = att
      · rw [if_pos h1] at hchk
        exact ih u1 (Function.update u2 (magicIndex magic bits occ) att)
          (fun j => by
            rw [Function.update_apply]
            by_cases hj : j = magicIndex magic bits occ
            · rw [if_pos hj, hj]
              exact h1
            · rw [if_neg hj]
              exact hptw j)
          hchk i hne
      · rw [if_neg h1] at hchk
        exact absurd hchk (by simp)

theorem fill_correct (magic bits : Nat) :
    ∀ (L : List (Nat × Nat)) (u1 u2 : Nat → Nat), (∀ j, u1 j = u2 j) →
      magic_check_loop magic bits u1 L = true →
      (∀ p ∈ L, p.2 ≠ 0) →
      ∀ p ∈ L, fill_attacks_table magic bits L u2 (magicIndex magic bits p.1) = p.2 := by
  intro L
  induction L with
  | nil =>
    intro _ _ _ _ _ p hp
    exact absurd hp (List.not_mem_nil _)
  | cons q rest ih =>
    intro u1 u2 hptw hchk hnz p hp
    obtain ⟨occ, att⟩ := q
    rw [magic_check_loop] at hchk
    rw [fill_attacks_table]
    by_cases h0 : u1 (magicIndex magic bits occ) = 0
    · rw [if_pos h0] at hchk
      rcases List.mem_cons.mp hp with rfl | hp2
      · have hatt : att ≠ 0 := hnz (occ, att) (List.mem_cons_self _ _)
        have hg := fill_preserve magic bits rest
          (Function.update u1 (magicIndex magic bits occ) att)
          (Function.update u2 (magicIndex magic bits occ) att)
          (fun j => by
            rw [Function.update_apply, Function.update_apply, hptw j])
          hchk (magicIndex magic bits occ) (by
            rw [Function.update_apply, if_pos rfl]
            exact hatt)
        rw [Function.update_apply, if_pos rfl] at hg
        exact hg
      · exact ih (Function.update u1 (magicIndex magic bits occ) att)
          (Function.update u2 (magicIndex magic bits occ) att)
          (fun j => by
            rw [Function.update_apply, Function.update_apply, hptw j])
          hchk (fun q hq => hnz q (List.mem_cons_of_mem _ hq)) p hp2
    · rw [if_neg h0] at hchk
      by_cases h1 : u1 (magicIndex magic bits occ) = att
      · rw [if_pos h1] at hchk
        rcases List.mem_cons.mp hp with rfl | hp2
        · have hatt : att ≠ 0 := hnz (occ, att) (List.mem_cons_self _ _)
          have hg := fill_preserve magic bits rest u1
            (Function.update u2 (magicIndex magic bits occ) att)
            (fun j => by
              rw [Function.update_apply]
              by_cases hj : j = magicIndex magic bits occ
              · rw [if_pos hj, hj]
                exact h1
              · rw [if_neg hj]
                exact hptw j)
            hchk (magicIndex magic bits occ) (by
              rw [h1]
              exact hatt)
          rw [h1] at hg
          exact hg
        · exact ih u1 (Function.update u2 (magicIndex magic bits occ) att)
            (fun j => by
              rw [Function.update_apply]
              by_cases hj : j = magicIndex magic bits occ
              · rw [if_pos hj, hj]
                exact h1
              · rw [if_neg hj]
                exact hptw j)
            hchk (fun q hq => hnz q (List.mem_cons_of_mem _ hq)) p hp2
      · rw [if_neg h1] at hchk
        exact absurd hchk (by simp)

theorem forall_square_of_all {P : Square → Prop} [DecidablePred P]
    (h : ((List.range 64).all fun v => decide (P (mkSquare v))) = true) : ∀ sq, P sq := by
  intro sq
  have h2 := List.all_eq_true.mp h sq.val (List.mem_range.mpr sq.isLt)
  rw [decide_eq_true_eq] at h2
  have he : mkSquare sq.val = sq := Fin.ext (mkSquare_val sq.isLt)
  rwa [he] at h2

theorem relevant_bishop_lt (sq : Square) :
    generate_relevant_bishop_occupancy_mask sq < 2 ^ 64 :=
  forall_square_of_all (P := fun t => generate_relevant_bishop_occupancy_mask t < 2 ^ 64)
    (by decide) sq

theorem relevant_rook_lt (sq : Square) :
    generate_relevant_rook_occupancy_mask sq < 2 ^ 64 :=
  forall_square_of_all (P := fun t => generate_relevant_rook_occupancy_mask t < 2 ^ 64)
    (by decide) sq

theorem magic_table_lookup {mask : Nat} {ray : Nat → Nat} {magic : Nat}
    (hmask : mask < 2 ^ 64) (hray : ∀ s, ray s ≠ 0)
    (hacc : magic_accepts mask ray magic = true) (occ : Nat) :
    fill_attacks_table magic (countOnes mask) (occupancyAttackPairs mask ray) (fun _ => 0)
      (magicIndex magic (countOnes mask) (occ &&& mask)) = ray (occ &&& mask) := by
  rw [magic_accepts] at hacc
  have hsub : ∀ j, (occ &&& mask).testBit j = true → j ∈ bitIndices mask := by
    intro j hj
    rw [Nat.testBit_and, Bool.and_eq_true] at hj
    exact mem_bitIndices.mpr ⟨testBit_lt_64 hmask hj.2, hj.2⟩
  obtain ⟨i, hi, hbuild⟩ := buildRec_surj (bitIndices mask) (occ &&& mask) hsub
  have hmem : (occ &&& mask, ray (occ &&& mask)) ∈ occupancyAttackPairs mask ray := by
    rw [occupancyAttackPairs]
    refine List.mem_map.mpr ⟨i, List.mem_range.mpr hi, ?_⟩
    rw [build_blocker_eq_buildRec, hbuild]
  have hnz : ∀ p ∈ occupancyAttackPairs mask ray, p.2 ≠ 0 := by
    intro p hp
    rw [occupancyAttackPairs] at hp
    rcases List.mem_map.mp hp with ⟨j, _, rfl⟩
    exact hray _
  exact fill_correct magic (countOnes mask) (occupancyAttackPairs mask ray)
    (fun _ => 0) (fun _ => 0) (fun _ => rfl) hacc hnz
    (occ &&& mask, ray (occ &&& mask)) hmem

/-- C9: for every square, every occupancy, and every magic number that the
`find_magic_number` verification loop accepts for that square's relevant
mask and reference ray walk, the magic-indexed table lookup returns exactly
the blocker-aware ray walk of the occupancy restricted to the relevant
mask, for both the bishop and the rook tables. -/
theorem c9_magic_realises_raywalk (p : Piece) (magic : Nat) (sq : Square) (occ : Nat)
    (hacc : magic_accepts
        (match p with
          | .Rook => generate_relevant_rook_occupancy_mask sq
          | _ => generate_relevant_bishop_occupancy_mask sq)
        (match p with
          | .Rook => generate_rook_attacks_mask sq
          | _ => generate_bishop_attacks_mask sq) magic = true) :
    (match p with
      | .Rook => magic_rook_lookup magic sq occ
      | _ => magic_bishop_lookup magic sq occ) =
    (match p with
      | .Rook => get_rook_attacks_mask sq occ
      | _ => get_bishop_attacks_mask sq occ) := by
  cases p
  case Rook =>
    rw [magic_rook_lookup, get_rook_attacks_mask]
    exact magic_table_lookup (relevant_rook_lt sq) (generate_rook_ne_zero sq) hacc occ
  all_goals
    rw [magic_bishop_lookup, get_bishop_attacks_mask]
    exact magic_table_lookup (relevant_bishop_lt sq) (generate_bishop_ne_zero sq) hacc occ

end Orion

namespace Orion

theorem c9_magic_realises_raywalk_witness :
    magic_bishop_lookup 1157460297201095712 (mkSquare 0) 262144 =
      get_bishop_attacks_mask (mkSquare 0) 262144 :=
  c9_magic_realises_raywalk Piece.Bishop 1157460297201095712 (mkSquare 0) 262144
    (by decide)

end Orion


namespace Orion

theorem c10_boardEq_ignores_history_entries_witness :
    boardEq (Board.get_start_position.make_move
        (Move.normal (mkSquare 12) (mkSquare 28) Piece.Pawn none none
          MoveFlags.DOUBLE_PUSH))
      { Board.get_start_position.make_move
          (Move.normal (mkSquare 12) (mkSquare 28) Piece.Pawn none none
            MoveFlags.DOUBLE_PUSH) with
        history := [⟨Move.normal (mkSquare 8) (mkSquare 16) Piece.Pawn none none
          MoveFlags.NONE, Board.get_start_position.game_state⟩] } = true :=
  c10_boardEq_ignores_history_entries _ _ (by decide)

end Orion
